import Mathlib

/-!
Shallow embedding of the Barnes-Hut simulation (src/main.cc) and proofs of
the specification claims.  Numeric code is embedded over an arbitrary linear
ordered field; witnesses instantiate it at the rationals, and the claims about
the square root in the force computation instantiate it at the reals with
Real.sqrt.  The C++ recursion of quad_node_insert is not structurally
terminating (coincident points subdivide forever), so the embedding threads an
explicit fuel parameter; running out of fuel yields none.
-/

set_option maxHeartbeats 1000000
set_option linter.unusedSectionVars false

namespace BH

variable {α : Type} [LinearOrderedField α]

/-- Embedding of sf::Vector2f (componentwise equality, as operator== does). -/
structure vec2_t (α : Type) where
  x : α
  y : α
  deriving DecidableEq

instance : Add (vec2_t α) := ⟨fun a b => ⟨a.x + b.x, a.y + b.y⟩⟩

instance : Sub (vec2_t α) := ⟨fun a b => ⟨a.x - b.x, a.y - b.y⟩⟩

/-- Vector times scalar, sf::Vector2f operator*. -/
def vec2_t.smul (v : vec2_t α) (s : α) : vec2_t α := ⟨v.x * s, v.y * s⟩

/-- Vector divided by scalar, sf::Vector2f operator/. -/
def vec2_t.sdiv (v : vec2_t α) (s : α) : vec2_t α := ⟨v.x / s, v.y / s⟩

/-- Embedding of sf::FloatRect. -/
structure rect_t (α : Type) where
  left : α
  top : α
  width : α
  height : α
  deriving DecidableEq

/-- sf::FloatRect::contains: half-open box test computed with min/max of
left and left+width (resp. top and top+height), exactly as in SFML. -/
def rect_t.contains [LinearOrderedField α] (r : rect_t α) (p : vec2_t α) : Bool :=
  decide (min r.left (r.left + r.width) ≤ p.x) &&
  decide (p.x < max r.left (r.left + r.width)) &&
  decide (min r.top (r.top + r.height) ≤ p.y) &&
  decide (p.y < max r.top (r.top + r.height))

/-- Embedding of bh::point_t. -/
structure point_t (α : Type) where
  mass : α
  position : vec2_t α
  velocity : vec2_t α
  deriving DecidableEq

/-- bh::point_init (velocity defaults to the zero vector at call sites). -/
def point_init (mass : α) (position : vec2_t α) (velocity : vec2_t α := ⟨0, 0⟩) :
    point_t α :=
  ⟨mass, position, velocity⟩

/-- Embedding of bh::quad_node_t.  The C++ node carries four child pointers,
each possibly NULL; the list holds the non-null children in slot order, so
the empty list is the all-NULL state produced by quad_node_init and a
four-element list is the state produced by quad_node_subdivide. -/
inductive quad_node_t (α : Type) : Type where
  | mk : α → vec2_t α → rect_t α → Option (point_t α) → List (quad_node_t α) →
      quad_node_t α

namespace quad_node_t

def total_mass : quad_node_t α → α
  | .mk tm _ _ _ _ => tm

def center_of_mass : quad_node_t α → vec2_t α
  | .mk _ com _ _ _ => com

def boundary : quad_node_t α → rect_t α
  | .mk _ _ bnd _ _ => bnd

def point : quad_node_t α → Option (point_t α)
  | .mk _ _ _ pt _ => pt

def children : quad_node_t α → List (quad_node_t α)
  | .mk _ _ _ _ cs => cs

end quad_node_t

/-- bh::quad_node_init: fresh node, total_mass 0, center_of_mass (0,0),
no occupant, all children NULL. -/
def quad_node_init (boundary : rect_t α) : quad_node_t α :=
  .mk 0 ⟨0, 0⟩ boundary none []

/-- bh::quad_node_is_leaf: all four child pointers NULL. -/
def quad_node_is_leaf (node : quad_node_t α) : Bool :=
  node.children.isEmpty

/-- The four quadrant boundaries created by quad_node_subdivide, in the
slot order of the C++ children array (center = (left + width/2,
top + height/2)). -/
def quad_boundaries (b : rect_t α) : List (rect_t α) :=
  [⟨b.left, b.top, b.width / 2, b.height / 2⟩,
   ⟨b.left + b.width / 2, b.top, b.width / 2, b.height / 2⟩,
   ⟨b.left, b.top + b.height / 2, b.width / 2, b.height / 2⟩,
   ⟨b.left + b.width / 2, b.top + b.height / 2, b.width / 2, b.height / 2⟩]

/-- bh::quad_node_subdivide: creates exactly four fresh children, one per
quadrant boundary. -/
def quad_node_subdivide (b : rect_t α) : List (quad_node_t α) :=
  (quad_boundaries b).map quad_node_init

/-- Embedding of the C++ pattern `for (auto child : children) f(child)` for a
fallible per-child operation: applies the operation to every element in
order, failing when any application fails. -/
def for_each_child (g : quad_node_t α → Option (quad_node_t α)) :
    List (quad_node_t α) → Option (List (quad_node_t α))
  | [] => some []
  | c :: rest =>
    match g c with
    | none => none
    | some c' =>
      match for_each_child g rest with
      | none => none
      | some rest' => some (c' :: rest')

/-- bh::quad_node_insert with explicit fuel (the C++ recursion has no
structural bound; each recursive call into a child consumes one unit).
Mirrors the source: drop the point when the boundary does not contain it;
store it when the node is an empty leaf; when the node is an occupied leaf,
subdivide, clear the occupant, re-insert the dislodged occupant into all
four children, and fall through to inserting the new point into all four
children; when the node is internal, insert into all four children. -/
def quad_node_insert : Nat → quad_node_t α → point_t α → Option (quad_node_t α)
  | 0, _, _ => none
  | fuel + 1, .mk tm com bnd pt cs, p =>
    if bnd.contains p.position then
      if cs.isEmpty then
        match pt with
        | none => some (.mk tm com bnd (some p) cs)
        | some save =>
          match for_each_child (fun c => quad_node_insert fuel c save)
              (quad_node_subdivide bnd) with
          | none => none
          | some cs1 =>
            match for_each_child (fun c => quad_node_insert fuel c p) cs1 with
            | none => none
            | some cs2 => some (.mk tm com bnd none cs2)
      else
        match for_each_child (fun c => quad_node_insert fuel c p) cs with
        | none => none
        | some cs' => some (.mk tm com bnd pt cs')
    else
      some (.mk tm com bnd pt cs)

/-- Inserting a whole list of bodies, as the simulation-thread loop
`for (const auto &p : local_points) quad_node_insert(root, p)` does, with the
same fuel for every insertion. -/
def quad_node_insert_all (fuel : Nat) :
    quad_node_t α → List (point_t α) → Option (quad_node_t α)
  | n, [] => some n
  | n, p :: rest =>
    match quad_node_insert fuel n p with
    | none => none
    | some n' => quad_node_insert_all fuel n' rest

/-- The running total `node->total_mass += child->total_mass` of
quad_node_compute_mass, over the four children in order. -/
def children_total_mass (cs : List (quad_node_t α)) : α :=
  cs.foldl (fun a c => a + c.total_mass) 0

/-- The running total `node->center_of_mass += child->center_of_mass *
child->total_mass` of quad_node_compute_mass, over the four children in
order. -/
def children_weighted_com (cs : List (quad_node_t α)) : vec2_t α :=
  cs.foldl (fun a c => a + c.center_of_mass.smul c.total_mass) ⟨0, 0⟩

mutual

/-- bh::quad_node_compute_mass: post-order aggregation.  A leaf with an
occupant takes the occupant's position and mass; an empty leaf is left
unchanged; an internal node zeroes its accumulators, accumulates over the
children, and divides the weighted centre sum by the total only when the
total is positive. -/
def quad_node_compute_mass : quad_node_t α → quad_node_t α
  | .mk tm com bnd pt cs =>
    if cs.isEmpty then
      match pt with
      | some q => .mk q.mass q.position bnd pt cs
      | none => .mk tm com bnd pt cs
    else
      let cs' := quad_node_compute_mass_list cs
      let t := children_total_mass cs'
      let w := children_weighted_com cs'
      .mk t (if 0 < t then w.sdiv t else w) bnd pt cs'

/-- The `for (auto child : children)` loop of quad_node_compute_mass. -/
def quad_node_compute_mass_list : List (quad_node_t α) → List (quad_node_t α)
  | [] => []
  | c :: rest => quad_node_compute_mass c :: quad_node_compute_mass_list rest

end

/-- The process-wide constants THETA, GRAVITY_CONSTANT, TIME_STEP and
SOFTENING, together with the square-root function used by
quad_node_compute_force (std::sqrt in the source). -/
structure bh_consts (α : Type) where
  theta : α
  gravity_constant : α
  time_step : α
  softening : α
  sqrt_fn : α → α

/-- The squared softened separation dx*dx + dy*dy + SOFTENING*SOFTENING fed
to std::sqrt by quad_node_compute_force. -/
def softened_norm_sq [Add β] [Mul β] (s : β) (d : vec2_t β) : β :=
  d.x * d.x + d.y * d.y + s * s

/-- The softened distance std::sqrt(dx*dx + dy*dy + SOFTENING*SOFTENING)
computed by quad_node_compute_force. -/
def softened_distance [Add β] [Mul β] (sq : β → β) (s : β) (d : vec2_t β) : β :=
  sq (softened_norm_sq s d)

mutual

/-- bh::quad_node_compute_force.  Returns the updated point (the C++ mutates
it through a pointer): skip when the node's aggregate mass is zero or the
point sits exactly at the node's centre of mass; otherwise accept the node as
a single point mass when it is a leaf or the opening-angle ratio
boundary.width / distance is below THETA, adding the velocity increment; and
otherwise recurse into the four children in order. -/
def quad_node_compute_force (C : bh_consts α) : quad_node_t α → point_t α → point_t α
  | .mk tm com bnd _ cs, p =>
    if tm = 0 ∨ p.position = com then p
    else
      let direction := com - p.position
      let distance := softened_distance C.sqrt_fn C.softening direction
      let ratio := bnd.width / distance
      if cs.isEmpty ∨ ratio < C.theta then
        let force := C.gravity_constant * tm * p.mass /
          (distance * distance + C.softening * C.softening)
        let acceleration := ((direction.sdiv distance).smul force).sdiv p.mass
        { p with velocity := p.velocity + acceleration.smul C.time_step }
      else
        quad_node_compute_force_list C cs p

/-- The `for (auto child : children)` loop of quad_node_compute_force: the
point accumulates the children's velocity contributions in order. -/
def quad_node_compute_force_list (C : bh_consts α) :
    List (quad_node_t α) → point_t α → point_t α
  | [], p => p
  | c :: rest, p => quad_node_compute_force_list C rest (quad_node_compute_force C c p)

end

/-- One full simulation step for one body, as the simulation thread performs
it: the force traversal against the aggregated root, then
position += velocity * TIME_STEP. -/
def sim_point_step (C : bh_consts α) (root : quad_node_t α) (p : point_t α) :
    point_t α :=
  let p' := quad_node_compute_force C root p
  { p' with position := p'.position + p'.velocity.smul C.time_step }

mutual

/-- All nodes of a tree (the node itself and, recursively, its children). -/
def all_nodes : quad_node_t α → List (quad_node_t α)
  | .mk tm com bnd pt cs => .mk tm com bnd pt cs :: all_nodes_list cs

/-- All nodes of a list of trees. -/
def all_nodes_list : List (quad_node_t α) → List (quad_node_t α)
  | [] => []
  | c :: rest => all_nodes c ++ all_nodes_list rest

end

/-- The occupants stored in a tree, in node enumeration order. -/
def occupants (t : quad_node_t α) : List (point_t α) :=
  (all_nodes t).filterMap quad_node_t.point

/-- The occupants stored in a list of trees. -/
def occupants_list (cs : List (quad_node_t α)) : List (point_t α) :=
  (all_nodes_list cs).filterMap quad_node_t.point

/-- Sum of the masses of the occupants stored in a tree. -/
def occupant_mass_sum (t : quad_node_t α) : α :=
  ((occupants t).map point_t.mass).sum

/-- Sum of the masses of the occupants stored in a list of trees. -/
def occupant_mass_sum_list (cs : List (quad_node_t α)) : α :=
  ((occupants_list cs).map point_t.mass).sum

mutual

/-- The nodes visited by quad_node_compute_force, as the list of child-index
paths from the queried root.  The traversal decisions (the zero-mass /
coincident-point guard, and the leaf-or-opening-angle acceptance) depend only
on the queried position, never on the velocity the traversal mutates, so the
visited set is a function of the tree, the position, and the constants. -/
def force_visited (C : bh_consts α) : quad_node_t α → vec2_t α → List (List Nat)
  | .mk tm com bnd _ cs, pos =>
    if tm = 0 ∨ pos = com then [[]]
    else
      let distance := softened_distance C.sqrt_fn C.softening (com - pos)
      if cs.isEmpty ∨ bnd.width / distance < C.theta then [[]]
      else [] :: force_visited_list C cs pos 0

/-- Visited paths contributed by the children, the i-th child's paths
prefixed with i. -/
def force_visited_list (C : bh_consts α) :
    List (quad_node_t α) → vec2_t α → Nat → List (List Nat)
  | [], _, _ => []
  | c :: rest, pos, i =>
    (force_visited C c pos).map (i :: ·) ++ force_visited_list C rest pos (i + 1)

end

/-!  Models of the loop/concurrency portions of src/main.cc. -/

/-- The shared state of main: the double buffer (points_previous,
points_current) plus the publish bookkeeping (last_sim_update,
sim_update_interval), everything guarded by points_mutex.  Times are
modelled as values of the scalar field. -/
structure sim_shared_state (α : Type) where
  points_previous : List (point_t α)
  points_current : List (point_t α)
  last_sim_update : α
  sim_update_interval : α

/-- The state owned by the simulation thread: the shared buffer plus its
private prev_sim_time used to measure the interval between publishes. -/
structure sim_loop_state (α : Type) where
  shared : sim_shared_state α
  prev_sim_time : α

/-- One iteration of the sim_thread loop body (src/main.cc lines 256-301):
copy points_current into a working copy under the lock, run the step on the
working copy (tree build, mass aggregation, force and integration, abstracted
as the compute argument), measure delta against prev_sim_time, and publish
under the lock: swap points_previous with points_current, then swap
points_current with the working copy, and record the timestamp and the
measured interval. -/
def sim_thread_iteration (compute : List (point_t α) → List (point_t α))
    (now : α) (st : sim_loop_state α) : sim_loop_state α :=
  let local_points := st.shared.points_current
  let updated := compute local_points
  let delta := now - st.prev_sim_time
  { shared :=
      { points_previous := st.shared.points_current
        points_current := updated
        last_sim_update := now
        sim_update_interval := delta }
    prev_sim_time := now }

/-- The sim_thread loop run for a given number of completed steps, the n-th
step observing wall-clock time (times n). -/
def sim_thread_run (compute : List (point_t α) → List (point_t α))
    (times : Nat → α) (st0 : sim_loop_state α) : Nat → sim_loop_state α
  | 0 => st0
  | n + 1 => sim_thread_iteration compute (times n) (sim_thread_run compute times st0 n)

/-- The variables shared between the simulation thread and the consumer. -/
inductive shared_var : Type where
  | points_previous
  | points_current
  | last_sim_update
  | sim_update_interval
  deriving DecidableEq

/-- The two long-lived execution contexts of src/main.cc. -/
inductive exec_context : Type where
  | sim_thread
  | consumer
  deriving DecidableEq

/-- One syntactic access to a shared variable in src/main.cc: who performs
it, which variable, whether it writes, whether points_mutex is held at that
program point, and the source line. -/
structure shared_access where
  who : exec_context
  var : shared_var
  is_write : Bool
  under_lock : Bool
  line : Nat
  deriving DecidableEq

/-- Every access to the shared double-buffer state in src/main.cc.  The
simulation thread copies points_current under a lock_guard (lines 259-261)
and publishes under a lock_guard (lines 286-293: the two swaps write both
snapshot slots, then the timestamp and interval are stored).  The consumer
copies both snapshots in the update_done branch (lines 365-366) and reads the
timing values for interpolation (lines 382 and 384); none of these four reads
is inside a lock_guard of points_mutex - the consumer relies on the
update_done / do_update atomic flags instead. -/
def shared_accesses : List shared_access :=
  [⟨.sim_thread, .points_current, false, true, 260⟩,
   ⟨.sim_thread, .points_previous, true, true, 288⟩,
   ⟨.sim_thread, .points_current, true, true, 288⟩,
   ⟨.sim_thread, .points_current, true, true, 289⟩,
   ⟨.sim_thread, .last_sim_update, true, true, 291⟩,
   ⟨.sim_thread, .sim_update_interval, true, true, 292⟩,
   ⟨.consumer, .points_previous, false, false, 365⟩,
   ⟨.consumer, .points_current, false, false, 366⟩,
   ⟨.consumer, .last_sim_update, false, false, 382⟩,
   ⟨.consumer, .sim_update_interval, false, false, 384⟩]

/-- The configuration the spec's start interface receives. -/
structure sim_config (α : Type) where
  theta : α
  gravity_constant : α
  time_step : α
  softening : α
  tree_root_bounds : rect_t α

/-- The error taxonomy of the spec's start interface. -/
inductive start_error : Type where
  | config_error
  deriving DecidableEq

/-- A successfully started simulation: the initial bodies and the captured
configuration. -/
structure running_sim (α : Type) where
  bodies : List (point_t α)
  config : sim_config α

/-- Modelled from the spec: src/main.cc has no start routine (main hardcodes
THETA, GRAVITY_CONSTANT, TIME_STEP and SOFTENING at lines 216-219 and never
validates them), so the validation contract of the spec's
start(initial_bodies, config) is modelled from its words: fail with
ConfigError, creating no state, if any body mass, the timestep or the
softening is non-positive or theta is negative; otherwise return the started
simulation. -/
def sim_start (bodies : List (point_t α)) (cfg : sim_config α) :
    Except start_error (running_sim α) :=
  if bodies.all (fun p => decide (0 < p.mass)) && decide (0 < cfg.time_step) &&
      decide (0 < cfg.softening) && decide (0 ≤ cfg.theta) then
    .ok ⟨bodies, cfg⟩
  else
    .error .config_error

/-!  Structural invariants of the quadtree. -/

/-- Well-formedness of a tree reachable from quad_node_init by insertions:
children come all absent or all four present with the subdivision quadrant
boundaries, an occupied node is a leaf, and every occupant was admitted by
the containment check of quad_node_insert. -/
inductive quad_wf : quad_node_t α → Prop where
  | leaf : ∀ (tm : α) (com : vec2_t α) (bnd : rect_t α) (pt : Option (point_t α)),
      (∀ q, pt = some q → bnd.contains q.position = true) →
      quad_wf (.mk tm com bnd pt [])
  | node : ∀ (tm : α) (com : vec2_t α) (bnd : rect_t α) (c0 c1 c2 c3 : quad_node_t α),
      [c0.boundary, c1.boundary, c2.boundary, c3.boundary] = quad_boundaries bnd →
      quad_wf c0 → quad_wf c1 → quad_wf c2 → quad_wf c3 →
      quad_wf (.mk tm com bnd none [c0, c1, c2, c3])

/-- All total_mass fields of the tree are still at their quad_node_init
value 0 (insertion never touches them; only quad_node_compute_mass does). -/
inductive tm_zero : quad_node_t α → Prop where
  | mk : ∀ (com : vec2_t α) (bnd : rect_t α) (pt : Option (point_t α))
      (cs : List (quad_node_t α)),
      (∀ c ∈ cs, tm_zero c) → tm_zero (.mk 0 com bnd pt cs)

/-!  Basic lemmas. -/

@[simp] theorem vec2_add_def (a b : vec2_t α) : a + b = ⟨a.x + b.x, a.y + b.y⟩ := rfl

@[simp] theorem vec2_sub_def (a b : vec2_t α) : a - b = ⟨a.x - b.x, a.y - b.y⟩ := rfl

theorem vec2_eq_iff (a b : vec2_t α) : a = b ↔ a.x = b.x ∧ a.y = b.y := by
  cases a
  cases b
  simp [vec2_t.mk.injEq]

theorem rect_contains_iff (r : rect_t α) (p : vec2_t α) :
    r.contains p = true ↔
      (min r.left (r.left + r.width) ≤ p.x ∧ p.x < max r.left (r.left + r.width) ∧
       min r.top (r.top + r.height) ≤ p.y ∧ p.y < max r.top (r.top + r.height)) := by
  simp [rect_t.contains, and_assoc]

namespace quad_node_t

@[simp] theorem total_mass_mk (tm : α) (com bnd pt cs) :
    total_mass (.mk tm com bnd pt cs) = tm := rfl

@[simp] theorem center_of_mass_mk (tm : α) (com bnd pt cs) :
    center_of_mass (.mk tm com bnd pt cs) = com := rfl

@[simp] theorem boundary_mk (tm : α) (com bnd pt cs) :
    boundary (.mk tm com bnd pt cs) = bnd := rfl

@[simp] theorem point_mk (tm : α) (com bnd pt cs) :
    point (.mk tm com bnd pt cs) = pt := rfl

@[simp] theorem children_mk (tm : α) (com bnd pt cs) :
    children (.mk tm com bnd pt cs) = cs := rfl

end quad_node_t

@[simp] theorem quad_node_is_leaf_mk (tm : α) (com bnd pt cs) :
    quad_node_is_leaf (.mk tm com bnd pt cs) = cs.isEmpty := rfl

/-- Strong induction over the nested tree type: to prove a property of every
tree it suffices to prove it for a node from the property of its children. -/
theorem quad_node_ind {P : quad_node_t α → Prop}
    (h : ∀ (tm : α) com bnd pt cs, (∀ c ∈ cs, P c) → P (.mk tm com bnd pt cs)) :
    ∀ t, P t
  | .mk tm com bnd pt cs => h tm com bnd pt cs (fun c hc => quad_node_ind h c)
termination_by t => sizeOf t
decreasing_by
  have hlt := List.sizeOf_lt_of_mem hc
  simp only [quad_node_t.mk.sizeOf_spec]
  omega

/-!  Claim C2: the case analysis of quad_node_compute_force. -/

/-- C2: for every node and body, quad_node_compute_force contributes nothing
when the node's total_mass is zero or the body's position exactly equals the
node's center_of_mass; otherwise, with distance = sqrt(dx*dx + dy*dy +
softening*softening) and ratio = node.boundary.width / distance, when the
node is a leaf or ratio < theta it adds (direction/distance) * (G *
node.total_mass * body.mass / (distance^2 + softening^2)) / body.mass *
timestep to the body's velocity, and otherwise it recurses into all four
children (the body accumulating the children's contributions in order). -/
theorem quad_node_compute_force_cases (C : bh_consts α) (n : quad_node_t α)
    (p : point_t α) :
    (n.total_mass = 0 ∨ p.position = n.center_of_mass →
      quad_node_compute_force C n p = p) ∧
    (¬(n.total_mass = 0 ∨ p.position = n.center_of_mass) →
      (quad_node_is_leaf n = true ∨
          n.boundary.width /
            softened_distance C.sqrt_fn C.softening
              (n.center_of_mass - p.position) < C.theta →
        quad_node_compute_force C n p =
          (let direction := n.center_of_mass - p.position
           let distance := softened_distance C.sqrt_fn C.softening direction
           let force := C.gravity_constant * n.total_mass * p.mass /
             (distance * distance + C.softening * C.softening)
           let acceleration := ((direction.sdiv distance).smul force).sdiv p.mass
           { p with velocity := p.velocity + acceleration.smul C.time_step })) ∧
      (¬(quad_node_is_leaf n = true ∨
          n.boundary.width /
            softened_distance C.sqrt_fn C.softening
              (n.center_of_mass - p.position) < C.theta) →
        quad_node_compute_force C n p =
          quad_node_compute_force_list C n.children p)) := by
  obtain ⟨tm, com, bnd, pt, cs⟩ := n
  simp only [quad_node_t.total_mass_mk, quad_node_t.center_of_mass_mk,
    quad_node_t.boundary_mk, quad_node_t.children_mk, quad_node_is_leaf_mk]
  refine ⟨fun hguard => ?_, fun hguard => ⟨fun haccept => ?_, fun haccept => ?_⟩⟩
  · simp only [quad_node_compute_force]
    rw [if_pos hguard]
  · simp only [quad_node_compute_force]
    rw [if_neg hguard, if_pos haccept]
  · simp only [quad_node_compute_force]
    rw [if_neg hguard, if_neg haccept]

unseal Rat.add Rat.mul Rat.inv Rat.sub in
/-- Witness for C2: the three cases fired at concrete rational inputs with
the identity standing in for the square-root function: a zero-mass node is
skipped, a leaf contributes the closed-form velocity increment, and an
internal node failing the opening-angle test recurses into its children. -/
theorem quad_node_compute_force_cases_witness :
    (quad_node_compute_force (⟨0, 1, 1, 1, fun x => x⟩ : bh_consts ℚ)
        (.mk 0 ⟨0, 0⟩ ⟨0, 0, 4, 4⟩ none []) (point_init 1 ⟨1, 1⟩) =
      point_init 1 ⟨1, 1⟩) ∧
    ((quad_node_compute_force (⟨0, 1, 1, 1, fun x => x⟩ : bh_consts ℚ)
        (.mk 2 ⟨3, 4⟩ ⟨0, 0, 4, 4⟩ none []) (point_init 1 ⟨0, 0⟩)).velocity =
      ⟨6 / 17602, 8 / 17602⟩) ∧
    (quad_node_compute_force (⟨0, 1, 1, 1, fun x => x⟩ : bh_consts ℚ)
        (.mk 2 ⟨3, 4⟩ ⟨0, 0, 4, 4⟩ none (quad_node_subdivide ⟨0, 0, 4, 4⟩))
        (point_init 1 ⟨0, 0⟩) =
      quad_node_compute_force_list (⟨0, 1, 1, 1, fun x => x⟩ : bh_consts ℚ)
        (quad_node_subdivide ⟨0, 0, 4, 4⟩) (point_init 1 ⟨0, 0⟩)) := by
  refine ⟨(quad_node_compute_force_cases _ _ _).1 (Or.inl rfl), ?_, ?_⟩
  · rw [((quad_node_compute_force_cases (⟨0, 1, 1, 1, fun x => x⟩ : bh_consts ℚ)
      (.mk 2 ⟨3, 4⟩ ⟨0, 0, 4, 4⟩ none []) (point_init 1 ⟨0, 0⟩)).2
      (by decide)).1 (Or.inl rfl)]
    decide
  · exact ((quad_node_compute_force_cases (⟨0, 1, 1, 1, fun x => x⟩ : bh_consts ℚ)
      (.mk 2 ⟨3, 4⟩ ⟨0, 0, 4, 4⟩ none (quad_node_subdivide ⟨0, 0, 4, 4⟩))
      (point_init 1 ⟨0, 0⟩)).2 (by decide)).2 (by decide)

/-!  Claim C8: the divisors of quad_node_compute_force never vanish. -/

/-- C8: with softening > 0 and body.mass > 0, every division performed by
quad_node_compute_force has a nonzero divisor for all node and body values:
the softened distance sqrt(dx*dx + dy*dy + softening*softening), used to
divide the ratio, the direction and (squared, plus softening squared) the
force, is strictly positive regardless of the displacement d, and the body
mass is nonzero.  Stated at the reals with the real square root standing for
std::sqrt. -/
theorem softened_distance_divisors (s m : ℝ) (d : vec2_t ℝ)
    (hs : 0 < s) (hm : 0 < m) :
    0 < softened_distance Real.sqrt s d ∧
    softened_distance Real.sqrt s d ≠ 0 ∧
    softened_distance Real.sqrt s d * softened_distance Real.sqrt s d +
      s * s ≠ 0 ∧
    m ≠ 0 := by
  have hq : 0 < softened_norm_sq s d := by
    have hx := mul_self_nonneg d.x
    have hy := mul_self_nonneg d.y
    have hs2 := mul_pos hs hs
    unfold softened_norm_sq
    nlinarith
  have hd : 0 < softened_distance Real.sqrt s d := by
    unfold softened_distance
    exact Real.sqrt_pos.mpr hq
  have hdd := mul_pos hd hd
  have hs2 := mul_pos hs hs
  exact ⟨hd, ne_of_gt hd, ne_of_gt (by nlinarith), ne_of_gt hm⟩

/-- Witness for C8 at softening 1, mass 2, displacement (3, 4). -/
theorem softened_distance_divisors_witness :
    (0:ℝ) < 1 ∧ (0:ℝ) < 2 ∧
    (0 < softened_distance Real.sqrt (1:ℝ) ⟨3, 4⟩ ∧
     softened_distance Real.sqrt (1:ℝ) ⟨3, 4⟩ ≠ 0 ∧
     softened_distance Real.sqrt (1:ℝ) ⟨3, 4⟩ *
       softened_distance Real.sqrt (1:ℝ) ⟨3, 4⟩ + 1 * 1 ≠ 0 ∧
     (2:ℝ) ≠ 0) :=
  ⟨by norm_num, by norm_num,
    softened_distance_divisors 1 2 ⟨3, 4⟩ (by norm_num) (by norm_num)⟩

/-!  Claim C5: a single body alone in the tree feels no force. -/

/-- C5: for a tree built from exactly one body lying inside the root
boundary and then aggregated, one full simulation step for that body (the
force traversal against the root, then position += velocity * timestep)
leaves the body's velocity unchanged. -/
theorem single_body_step_velocity (C : bh_consts α) (bnd : rect_t α)
    (p : point_t α) (fuel : Nat) (t : quad_node_t α)
    (hc : bnd.contains p.position = true)
    (ht : quad_node_insert_all fuel (quad_node_init bnd) [p] = some t) :
    (sim_point_step C (quad_node_compute_mass t) p).velocity = p.velocity := by
  match fuel with
  | 0 => simp [quad_node_insert_all, quad_node_insert] at ht
  | fuel + 1 =>
    simp only [quad_node_insert_all, quad_node_insert, quad_node_init, hc,
      if_true, List.isEmpty_nil, Option.some.injEq] at ht
    subst ht
    simp [sim_point_step, quad_node_compute_mass, quad_node_compute_force]

unseal Rat.add Rat.mul Rat.inv Rat.sub in
/-- Witness for C5: a body of mass 2 at (1, 1) alone in the boundary
(0, 0, 4, 4). -/
theorem single_body_step_velocity_witness :
    ((⟨0, 0, 4, 4⟩ : rect_t ℚ).contains ⟨1, 1⟩ = true) ∧
    (∃ t, quad_node_insert_all 3 (quad_node_init ⟨0, 0, 4, 4⟩)
        [point_init 2 ⟨1, 1⟩] = some t ∧
      (sim_point_step (⟨1/2, 1, 1, 1, fun x => x⟩ : bh_consts ℚ)
          (quad_node_compute_mass t) (point_init 2 ⟨1, 1⟩)).velocity =
        (point_init 2 ⟨1, 1⟩).velocity) := by
  refine ⟨by decide, ?_⟩
  cases h : quad_node_insert_all 3 (quad_node_init (⟨0, 0, 4, 4⟩ : rect_t ℚ))
      [point_init 2 ⟨1, 1⟩] with
  | none =>
    have hs : (quad_node_insert_all 3 (quad_node_init (⟨0, 0, 4, 4⟩ : rect_t ℚ))
        [point_init 2 ⟨1, 1⟩]).isSome = true := by decide
    rw [h] at hs
    simp at hs
  | some t =>
    exact ⟨t, rfl,
      single_body_step_velocity ⟨1/2, 1, 1, 1, fun x => x⟩ ⟨0, 0, 4, 4⟩
        (point_init 2 ⟨1, 1⟩) 3 t (by decide) h⟩

/-!  Claim C6: configuration validation of the start interface. -/

/-- C6: starting the simulation with any configuration in which some body
mass, the timestep or the softening is non-positive, or theta is negative,
fails with ConfigError before the loop starts; the Except result carries no
simulation state in that case. -/
theorem sim_start_config_error (bodies : List (point_t α)) (cfg : sim_config α)
    (h : (∃ p ∈ bodies, p.mass ≤ 0) ∨ cfg.time_step ≤ 0 ∨
      cfg.softening ≤ 0 ∨ cfg.theta < 0) :
    sim_start bodies cfg = .error .config_error := by
  rw [sim_start, if_neg]
  intro hcond
  simp only [Bool.and_eq_true, List.all_eq_true, decide_eq_true_eq] at hcond
  obtain ⟨⟨⟨hall, ht⟩, hsoft⟩, hth⟩ := hcond
  rcases h with ⟨p, hp, hm⟩ | h | h | h
  · exact absurd (hall p hp) (not_lt.mpr hm)
  · exact absurd ht (not_lt.mpr h)
  · exact absurd hsoft (not_lt.mpr h)
  · exact absurd hth (not_le.mpr h)

/-- Witness for C6: a single body of mass -1 with otherwise valid
constants. -/
theorem sim_start_config_error_witness :
    ((∃ p ∈ [point_init (-1 : ℚ) ⟨0, 0⟩], p.mass ≤ 0) ∨
      (⟨1, 1, 1, 1, ⟨0, 0, 4, 4⟩⟩ : sim_config ℚ).time_step ≤ 0 ∨
      (⟨1, 1, 1, 1, ⟨0, 0, 4, 4⟩⟩ : sim_config ℚ).softening ≤ 0 ∨
      (⟨1, 1, 1, 1, ⟨0, 0, 4, 4⟩⟩ : sim_config ℚ).theta < 0) ∧
    sim_start [point_init (-1 : ℚ) ⟨0, 0⟩] ⟨1, 1, 1, 1, ⟨0, 0, 4, 4⟩⟩ =
      .error .config_error :=
  ⟨Or.inl ⟨point_init (-1 : ℚ) ⟨0, 0⟩, by decide, by decide⟩,
    sim_start_config_error _ _
      (Or.inl ⟨point_init (-1 : ℚ) ⟨0, 0⟩, by decide, by decide⟩)⟩

/-!  Claim C7: the publish step of the simulation loop. -/

/-- C7: after every completed step of the loop, the published current
snapshot is the step's working copy (the computation applied to the previous
current snapshot), the previous snapshot is the snapshot that was current
immediately before the publish, the publish timestamp is the step's
wall-clock time, and the recorded interval is the wall-clock time elapsed
since prev_sim_time, which after any completed step equals the last publish
timestamp. -/
theorem sim_thread_publish (compute : List (point_t α) → List (point_t α))
    (times : Nat → α) (st0 : sim_loop_state α) (n : Nat) :
    (sim_thread_run compute times st0 (n + 1)).shared.points_current =
      compute (sim_thread_run compute times st0 n).shared.points_current ∧
    (sim_thread_run compute times st0 (n + 1)).shared.points_previous =
      (sim_thread_run compute times st0 n).shared.points_current ∧
    (sim_thread_run compute times st0 (n + 1)).shared.last_sim_update =
      times n ∧
    (sim_thread_run compute times st0 (n + 1)).shared.sim_update_interval =
      times n - (sim_thread_run compute times st0 n).prev_sim_time ∧
    (sim_thread_run compute times st0 (n + 1)).prev_sim_time = times n ∧
    (n ≠ 0 → (sim_thread_run compute times st0 n).prev_sim_time =
      (sim_thread_run compute times st0 n).shared.last_sim_update) := by
  refine ⟨rfl, rfl, rfl, rfl, rfl, fun hn => ?_⟩
  cases n with
  | zero => exact absurd rfl hn
  | succ m => rfl

/-- Witness for C7 after the second step of a concrete run. -/
theorem sim_thread_publish_witness :
    (1 : Nat) ≠ 0 ∧
    ((sim_thread_run (fun l => l) (fun k => (k : ℚ)) ⟨⟨[], [], 0, 0⟩, 0⟩
        (1 + 1)).shared.points_current =
      (fun l => l) ((sim_thread_run (fun l => l) (fun k => (k : ℚ))
        ⟨⟨[], [], 0, 0⟩, 0⟩ 1).shared.points_current) ∧
    (sim_thread_run (fun l => l) (fun k => (k : ℚ)) ⟨⟨[], [], 0, 0⟩, 0⟩
        (1 + 1)).shared.points_previous =
      (sim_thread_run (fun l => l) (fun k => (k : ℚ))
        ⟨⟨[], [], 0, 0⟩, 0⟩ 1).shared.points_current ∧
    (sim_thread_run (fun l => l) (fun k => (k : ℚ)) ⟨⟨[], [], 0, 0⟩, 0⟩
        (1 + 1)).shared.last_sim_update = ((1 : Nat) : ℚ) ∧
    (sim_thread_run (fun l => l) (fun k => (k : ℚ)) ⟨⟨[], [], 0, 0⟩, 0⟩
        (1 + 1)).shared.sim_update_interval =
      ((1 : Nat) : ℚ) - (sim_thread_run (fun l => l) (fun k => (k : ℚ))
        ⟨⟨[], [], 0, 0⟩, 0⟩ 1).prev_sim_time ∧
    (sim_thread_run (fun l => l) (fun k => (k : ℚ)) ⟨⟨[], [], 0, 0⟩, 0⟩
        (1 + 1)).prev_sim_time = ((1 : Nat) : ℚ) ∧
    ((1 : Nat) ≠ 0 → (sim_thread_run (fun l => l) (fun k => (k : ℚ))
        ⟨⟨[], [], 0, 0⟩, 0⟩ 1).prev_sim_time =
      (sim_thread_run (fun l => l) (fun k => (k : ℚ))
        ⟨⟨[], [], 0, 0⟩, 0⟩ 1).shared.last_sim_update)) :=
  ⟨one_ne_zero,
    sim_thread_publish (fun l => l) (fun k => (k : ℚ)) ⟨⟨[], [], 0, 0⟩, 0⟩ 1⟩

/-!  Claim C10: lock discipline of the shared double-buffer state. -/

/-- C10 counterexample: it is not the case that every access to the shared
state happens under the points_mutex lock - the consumer's copy of
points_previous at line 365 (and its other three reads) runs outside any
lock_guard. -/
theorem shared_access_outside_lock_cex :
    ¬ (∀ a ∈ shared_accesses, a.under_lock = true) := by decide

/-- C10 amended: an access to the shared state is under the lock exactly
when the simulation thread performs it; all four consumer reads happen
outside the mutex, synchronized only by the update_done / do_update atomic
flags. -/
theorem shared_access_lock_discipline :
    ∀ a ∈ shared_accesses,
      (a.under_lock = true ↔ a.who = exec_context.sim_thread) := by decide

/-- Witness for the amended C10 at the consumer's read of points_previous. -/
theorem shared_access_lock_discipline_witness :
    (⟨.consumer, .points_previous, false, false, 365⟩ : shared_access) ∈
      shared_accesses ∧
    ((⟨.consumer, .points_previous, false, false, 365⟩ :
        shared_access).under_lock = true ↔
      (⟨.consumer, .points_previous, false, false, 365⟩ :
        shared_access).who = exec_context.sim_thread) :=
  ⟨by decide, shared_access_lock_discipline _ (by decide)⟩

/-!  Geometry of the quadrant subdivision. -/

/-- Containment grouped as an x-interval condition and a y-interval
condition. -/
theorem rect_contains_iff2 (r : rect_t α) (p : vec2_t α) :
    r.contains p = true ↔
      ((min r.left (r.left + r.width) ≤ p.x ∧
        p.x < max r.left (r.left + r.width)) ∧
       (min r.top (r.top + r.height) ≤ p.y ∧
        p.y < max r.top (r.top + r.height))) := by
  simp [rect_t.contains, and_assoc]

/-- Splitting a half-open interval at its midpoint: membership in the whole
is membership in exactly one of the two halves (stated with the min/max
normalisation of sf::FloatRect::contains, which also covers negative
widths). -/
theorem interval_halves (l w x : α) :
    ((min l (l + w) ≤ x ∧ x < max l (l + w)) ↔
      ((min l (l + w / 2) ≤ x ∧ x < max l (l + w / 2)) ∨
       (min (l + w / 2) (l + w) ≤ x ∧ x < max (l + w / 2) (l + w)))) ∧
    ¬((min l (l + w / 2) ≤ x ∧ x < max l (l + w / 2)) ∧
      (min (l + w / 2) (l + w) ≤ x ∧ x < max (l + w / 2) (l + w))) := by
  rcases le_total 0 w with hw | hw
  · have h1 : l ≤ l + w := by linarith
    have h2 : l ≤ l + w / 2 := by linarith
    have h3 : l + w / 2 ≤ l + w := by linarith
    rw [min_eq_left h1, max_eq_right h1, min_eq_left h2, max_eq_right h2,
      min_eq_left h3, max_eq_right h3]
    refine ⟨⟨fun hx => ?_, fun hx => ?_⟩, fun hx => ?_⟩
    · rcases lt_or_le x (l + w / 2) with h | h
      · exact Or.inl ⟨hx.1, h⟩
      · exact Or.inr ⟨h, hx.2⟩
    · rcases hx with ⟨ha, hb⟩ | ⟨ha, hb⟩ <;> exact ⟨by linarith, by linarith⟩
    · obtain ⟨⟨_, ha⟩, hb, _⟩ := hx
      linarith
  · have h1 : l + w ≤ l := by linarith
    have h2 : l + w / 2 ≤ l := by linarith
    have h3 : l + w ≤ l + w / 2 := by linarith
    rw [min_eq_right h1, max_eq_left h1, min_eq_right h2, max_eq_left h2,
      min_eq_right h3, max_eq_left h3]
    refine ⟨⟨fun hx => ?_, fun hx => ?_⟩, fun hx => ?_⟩
    · rcases le_or_lt (l + w / 2) x with h | h
      · exact Or.inl ⟨h, hx.2⟩
      · exact Or.inr ⟨hx.1, h⟩
    · rcases hx with ⟨ha, hb⟩ | ⟨ha, hb⟩ <;> exact ⟨by linarith, by linarith⟩
    · obtain ⟨⟨ha, _⟩, _, hb⟩ := hx
      linarith

/-- Two points of a common half-open interval lie closer than the interval
length (for a positive length, the form needed by the termination
argument). -/
theorem interval_sep (l w x1 x2 : α)
    (h1 : min l (l + w) ≤ x1 ∧ x1 < max l (l + w))
    (h2 : min l (l + w) ≤ x2 ∧ x2 < max l (l + w))
    (hw : 0 < w) : |x1 - x2| < w := by
  rw [min_eq_left (by linarith), max_eq_right (by linarith)] at h1 h2
  rw [abs_sub_lt_iff]
  constructor <;> linarith [h1.1, h1.2, h2.1, h2.2]

/-- The indicator sum over the four quadrants: a contained point is counted
by exactly one quadrant, an uncontained point by none. -/
theorem quad_indicator_sum (b : rect_t α) (p : vec2_t α) (m : α) :
    ((quad_boundaries b).map
        (fun q => if q.contains p = true then m else 0)).sum =
      if b.contains p = true then m else 0 := by
  obtain ⟨hsplitX, hdisjX⟩ := interval_halves b.left b.width p.x
  obtain ⟨hsplitY, hdisjY⟩ := interval_halves b.top b.height p.y
  have hx3 : ((min b.left (b.left + b.width / 2) ≤ p.x ∧
        p.x < max b.left (b.left + b.width / 2)) ∧
      ¬(min (b.left + b.width / 2) (b.left + b.width) ≤ p.x ∧
        p.x < max (b.left + b.width / 2) (b.left + b.width))) ∨
      (¬(min b.left (b.left + b.width / 2) ≤ p.x ∧
        p.x < max b.left (b.left + b.width / 2)) ∧
      (min (b.left + b.width / 2) (b.left + b.width) ≤ p.x ∧
        p.x < max (b.left + b.width / 2) (b.left + b.width))) ∨
      (¬(min b.left (b.left + b.width / 2) ≤ p.x ∧
        p.x < max b.left (b.left + b.width / 2)) ∧
      ¬(min (b.left + b.width / 2) (b.left + b.width) ≤ p.x ∧
        p.x < max (b.left + b.width / 2) (b.left + b.width))) := by
    by_cases h1 : (min b.left (b.left + b.width / 2) ≤ p.x ∧
        p.x < max b.left (b.left + b.width / 2))
    · by_cases h2 : (min (b.left + b.width / 2) (b.left + b.width) ≤ p.x ∧
          p.x < max (b.left + b.width / 2) (b.left + b.width))
      · exact absurd ⟨h1, h2⟩ hdisjX
      · exact Or.inl ⟨h1, h2⟩
    · by_cases h2 : (min (b.left + b.width / 2) (b.left + b.width) ≤ p.x ∧
          p.x < max (b.left + b.width / 2) (b.left + b.width))
      · exact Or.inr (Or.inl ⟨h1, h2⟩)
      · exact Or.inr (Or.inr ⟨h1, h2⟩)
  have hy3 : ((min b.top (b.top + b.height / 2) ≤ p.y ∧
        p.y < max b.top (b.top + b.height / 2)) ∧
      ¬(min (b.top + b.height / 2) (b.top + b.height) ≤ p.y ∧
        p.y < max (b.top + b.height / 2) (b.top + b.height))) ∨
      (¬(min b.top (b.top + b.height / 2) ≤ p.y ∧
        p.y < max b.top (b.top + b.height / 2)) ∧
      (min (b.top + b.height / 2) (b.top + b.height) ≤ p.y ∧
        p.y < max (b.top + b.height / 2) (b.top + b.height))) ∨
      (¬(min b.top (b.top + b.height / 2) ≤ p.y ∧
        p.y < max b.top (b.top + b.height / 2)) ∧
      ¬(min (b.top + b.height / 2) (b.top + b.height) ≤ p.y ∧
        p.y < max (b.top + b.height / 2) (b.top + b.height))) := by
    by_cases h1 : (min b.top (b.top + b.height / 2) ≤ p.y ∧
        p.y < max b.top (b.top + b.height / 2))
    · by_cases h2 : (min (b.top + b.height / 2) (b.top + b.height) ≤ p.y ∧
          p.y < max (b.top + b.height / 2) (b.top + b.height))
      · exact absurd ⟨h1, h2⟩ hdisjY
      · exact Or.inl ⟨h1, h2⟩
    · by_cases h2 : (min (b.top + b.height / 2) (b.top + b.height) ≤ p.y ∧
          p.y < max (b.top + b.height / 2) (b.top + b.height))
      · exact Or.inr (Or.inl ⟨h1, h2⟩)
      · exact Or.inr (Or.inr ⟨h1, h2⟩)
  have harithX : b.left + b.width / 2 + b.width / 2 = b.left + b.width := by
    ring
  have harithY : b.top + b.height / 2 + b.height / 2 = b.top + b.height := by
    ring
  rcases hx3 with ⟨hax, hbx⟩ | ⟨hax, hbx⟩ | ⟨hax, hbx⟩ <;>
    rcases hy3 with ⟨hay, hby⟩ | ⟨hay, hby⟩ | ⟨hay, hby⟩ <;>
    simp only [quad_boundaries, rect_contains_iff2, harithX, harithY,
      List.map_cons,
      List.map_nil, List.sum_cons, List.sum_nil, hsplitX, hsplitY,
      hax, hbx, hay, hby, true_and, and_true, false_and, and_false,
      true_or, or_true, false_or, or_false, iff_true, iff_false,
      not_true, not_false_iff, if_true, if_false, ite_true, ite_false,
      add_zero, zero_add, eq_self_iff_true]

/-- Containment negated, in the grouped form. -/
theorem rect_contains_iff2_false (r : rect_t α) (p : vec2_t α) :
    r.contains p = false ↔
      ¬((min r.left (r.left + r.width) ≤ p.x ∧
        p.x < max r.left (r.left + r.width)) ∧
       (min r.top (r.top + r.height) ≤ p.y ∧
        p.y < max r.top (r.top + r.height))) := by
  rw [← rect_contains_iff2]
  cases h : r.contains p <;> simp

/-- A point contained in a boundary lies in exactly one of its four
quadrants. -/
theorem quad_contains_cases4 (b : rect_t α) (v : vec2_t α)
    (hb : b.contains v = true) :
    ((⟨b.left, b.top, b.width / 2, b.height / 2⟩ : rect_t α).contains v =
        true ∧
     (⟨b.left + b.width / 2, b.top, b.width / 2, b.height / 2⟩ :
        rect_t α).contains v = false ∧
     (⟨b.left, b.top + b.height / 2, b.width / 2, b.height / 2⟩ :
        rect_t α).contains v = false ∧
     (⟨b.left + b.width / 2, b.top + b.height / 2, b.width / 2,
        b.height / 2⟩ : rect_t α).contains v = false) ∨
    ((⟨b.left, b.top, b.width / 2, b.height / 2⟩ : rect_t α).contains v =
        false ∧
     (⟨b.left + b.width / 2, b.top, b.width / 2, b.height / 2⟩ :
        rect_t α).contains v = true ∧
     (⟨b.left, b.top + b.height / 2, b.width / 2, b.height / 2⟩ :
        rect_t α).contains v = false ∧
     (⟨b.left + b.width / 2, b.top + b.height / 2, b.width / 2,
        b.height / 2⟩ : rect_t α).contains v = false) ∨
    ((⟨b.left, b.top, b.width / 2, b.height / 2⟩ : rect_t α).contains v =
        false ∧
     (⟨b.left + b.width / 2, b.top, b.width / 2, b.height / 2⟩ :
        rect_t α).contains v = false ∧
     (⟨b.left, b.top + b.height / 2, b.width / 2, b.height / 2⟩ :
        rect_t α).contains v = true ∧
     (⟨b.left + b.width / 2, b.top + b.height / 2, b.width / 2,
        b.height / 2⟩ : rect_t α).contains v = false) ∨
    ((⟨b.left, b.top, b.width / 2, b.height / 2⟩ : rect_t α).contains v =
        false ∧
     (⟨b.left + b.width / 2, b.top, b.width / 2, b.height / 2⟩ :
        rect_t α).contains v = false ∧
     (⟨b.left, b.top + b.height / 2, b.width / 2, b.height / 2⟩ :
        rect_t α).contains v = false ∧
     (⟨b.left + b.width / 2, b.top + b.height / 2, b.width / 2,
        b.height / 2⟩ : rect_t α).contains v = true) := by
  obtain ⟨hsplitX, hdisjX⟩ := interval_halves b.left b.width v.x
  obtain ⟨hsplitY, hdisjY⟩ := interval_halves b.top b.height v.y
  have harithX : b.left + b.width / 2 + b.width / 2 = b.left + b.width := by
    ring
  have harithY : b.top + b.height / 2 + b.height / 2 = b.top + b.height := by
    ring
  rw [rect_contains_iff2] at hb
  obtain ⟨hpx, hpy⟩ := hb
  have hxor : _ := hsplitX.mp hpx
  have hyor : _ := hsplitY.mp hpy
  have hx3 : ((min b.left (b.left + b.width / 2) ≤ v.x ∧
        v.x < max b.left (b.left + b.width / 2)) ∧
      ¬(min (b.left + b.width / 2) (b.left + b.width) ≤ v.x ∧
        v.x < max (b.left + b.width / 2) (b.left + b.width))) ∨
      (¬(min b.left (b.left + b.width / 2) ≤ v.x ∧
        v.x < max b.left (b.left + b.width / 2)) ∧
      (min (b.left + b.width / 2) (b.left + b.width) ≤ v.x ∧
        v.x < max (b.left + b.width / 2) (b.left + b.width))) := by
    rcases hxor with h | h
    · exact Or.inl ⟨h, fun h' => hdisjX ⟨h, h'⟩⟩
    · exact Or.inr ⟨fun h' => hdisjX ⟨h', h⟩, h⟩
  have hy3 : ((min b.top (b.top + b.height / 2) ≤ v.y ∧
        v.y < max b.top (b.top + b.height / 2)) ∧
      ¬(min (b.top + b.height / 2) (b.top + b.height) ≤ v.y ∧
        v.y < max (b.top + b.height / 2) (b.top + b.height))) ∨
      (¬(min b.top (b.top + b.height / 2) ≤ v.y ∧
        v.y < max b.top (b.top + b.height / 2)) ∧
      (min (b.top + b.height / 2) (b.top + b.height) ≤ v.y ∧
        v.y < max (b.top + b.height / 2) (b.top + b.height))) := by
    rcases hyor with h | h
    · exact Or.inl ⟨h, fun h' => hdisjY ⟨h, h'⟩⟩
    · exact Or.inr ⟨fun h' => hdisjY ⟨h', h⟩, h⟩
  rcases hx3 with ⟨hax, hbx⟩ | ⟨hax, hbx⟩ <;>
      rcases hy3 with ⟨hay, hby⟩ | ⟨hay, hby⟩
  · refine Or.inl ⟨?_, ?_, ?_, ?_⟩ <;>
      simp only [rect_contains_iff2, rect_contains_iff2_false, harithX,
        harithY]
    · exact ⟨hax, hay⟩
    · exact fun hc => hbx hc.1
    · exact fun hc => hby hc.2
    · exact fun hc => hbx hc.1
  · refine Or.inr (Or.inr (Or.inl ⟨?_, ?_, ?_, ?_⟩)) <;>
      simp only [rect_contains_iff2, rect_contains_iff2_false, harithX,
        harithY]
    · exact fun hc => hay hc.2
    · exact fun hc => hbx hc.1
    · exact ⟨hax, hby⟩
    · exact fun hc => hbx hc.1
  · refine Or.inr (Or.inl ⟨?_, ?_, ?_, ?_⟩) <;>
      simp only [rect_contains_iff2, rect_contains_iff2_false, harithX,
        harithY]
    · exact fun hc => hax hc.1
    · exact ⟨hbx, hay⟩
    · exact fun hc => hax hc.1
    · exact fun hc => hby hc.2
  · refine Or.inr (Or.inr (Or.inr ⟨?_, ?_, ?_, ?_⟩)) <;>
      simp only [rect_contains_iff2, rect_contains_iff2_false, harithX,
        harithY]
    · exact fun hc => hax hc.1
    · exact fun hc => hay hc.2
    · exact fun hc => hax hc.1
    · exact ⟨hbx, hby⟩

/-!  Enumeration and occupant bookkeeping. -/

@[simp] theorem all_nodes_mk (tm : α) (com bnd pt cs) :
    all_nodes (.mk tm com bnd pt cs) =
      .mk tm com bnd pt cs :: all_nodes_list cs := by
  rw [all_nodes]

@[simp] theorem all_nodes_list_nil :
    all_nodes_list ([] : List (quad_node_t α)) = [] := by
  rw [all_nodes_list]

@[simp] theorem all_nodes_list_cons (c : quad_node_t α) (cs) :
    all_nodes_list (c :: cs) = all_nodes c ++ all_nodes_list cs := by
  rw [all_nodes_list]

@[simp] theorem occupants_mk (tm : α) (com bnd pt cs) :
    occupants (.mk tm com bnd pt cs) = pt.toList ++ occupants_list cs := by
  cases pt <;> simp [occupants, occupants_list]

@[simp] theorem occupants_list_nil :
    occupants_list ([] : List (quad_node_t α)) = [] := by
  simp [occupants_list]

@[simp] theorem occupants_list_cons (c : quad_node_t α) (cs) :
    occupants_list (c :: cs) = occupants c ++ occupants_list cs := by
  simp [occupants_list, occupants]

@[simp] theorem occupant_mass_sum_list_nil :
    occupant_mass_sum_list ([] : List (quad_node_t α)) = 0 := by
  simp [occupant_mass_sum_list]

@[simp] theorem occupant_mass_sum_list_cons (c : quad_node_t α) (cs) :
    occupant_mass_sum_list (c :: cs) =
      occupant_mass_sum c + occupant_mass_sum_list cs := by
  simp [occupant_mass_sum_list, occupant_mass_sum]

@[simp] theorem occupant_mass_sum_mk_none (tm : α) (com bnd cs) :
    occupant_mass_sum (.mk tm com bnd none cs) =
      occupant_mass_sum_list cs := by
  simp [occupant_mass_sum, occupant_mass_sum_list]

@[simp] theorem occupant_mass_sum_mk_some (tm : α) (com bnd q cs) :
    occupant_mass_sum (.mk tm com bnd (some q) cs) =
      q.mass + occupant_mass_sum_list cs := by
  simp [occupant_mass_sum, occupant_mass_sum_list]

@[simp] theorem occupant_mass_sum_init (b : rect_t α) :
    occupant_mass_sum (quad_node_init b) = 0 := by
  simp [quad_node_init]

/-- quad_node_init produces a well-formed tree. -/
theorem quad_wf_init (b : rect_t α) : quad_wf (quad_node_init b) :=
  .leaf 0 ⟨0, 0⟩ b none (fun q hq => by cases hq)

/-- quad_node_init produces a tree with all total_mass fields zero. -/
theorem tm_zero_init (b : rect_t α) : tm_zero (quad_node_init b) :=
  .mk ⟨0, 0⟩ b none [] (fun c hc => by cases hc)

/-!  Generic facts about the insertion loop over children. -/

/-- Pointwise facts about a fallible child update transfer to the whole
traversal of the children list. -/
theorem for_each_child_forall2 (g : quad_node_t α → Option (quad_node_t α))
    (R : quad_node_t α → quad_node_t α → Prop) :
    ∀ cs cs', (∀ c ∈ cs, ∀ c', g c = some c' → R c c') →
      for_each_child g cs = some cs' → List.Forall₂ R cs cs'
  | [], cs', _, h => by
    simp only [for_each_child, Option.some.injEq] at h
    subst h
    exact .nil
  | c :: rest, cs', hR, h => by
    simp only [for_each_child] at h
    cases hg : g c with
    | none => rw [hg] at h; cases h
    | some c' =>
      rw [hg] at h
      cases hrest : for_each_child g rest with
      | none => rw [hrest] at h; cases h
      | some rest' =>
        rw [hrest] at h
        simp only [Option.some.injEq] at h
        subst h
        exact .cons (hR c (by simp) c' hg)
          (for_each_child_forall2 g R rest rest'
            (fun d hd => hR d (by simp [hd])) hrest)

/-- When every child update succeeds, the whole traversal succeeds, with the
pointwise results. -/
theorem for_each_child_some (g : quad_node_t α → Option (quad_node_t α)) :
    ∀ cs, (∀ c ∈ cs, ∃ c', g c = some c') →
      ∃ cs', for_each_child g cs = some cs' ∧
        List.Forall₂ (fun c c' => g c = some c') cs cs'
  | [], _ => ⟨[], rfl, .nil⟩
  | c :: rest, hs => by
    obtain ⟨c', hc'⟩ := hs c (by simp)
    obtain ⟨rest', hrest', hf2⟩ :=
      for_each_child_some g rest (fun d hd => hs d (by simp [hd]))
    exact ⟨c' :: rest', by simp [for_each_child, hc', hrest'], .cons hc' hf2⟩

/-- A successful insertion only rewrites the occupant and the children: the
total mass, the centre of mass and the boundary of the node are kept. -/
theorem insert_shape (fuel : Nat) (tm : α) (com bnd pt cs p t)
    (h : quad_node_insert fuel (.mk tm com bnd pt cs) p = some t) :
    ∃ pt' cs', t = .mk tm com bnd pt' cs' := by
  match fuel with
  | 0 => cases h
  | f + 1 =>
    simp only [quad_node_insert] at h
    split at h
    · split at h
      · split at h
        · exact ⟨some p, cs, by injection h with h; rw [← h]⟩
        · split at h
          · cases h
          · split at h
            · cases h
            · exact ⟨none, _, by injection h with h; rw [← h]⟩
      · split at h
        · cases h
        · exact ⟨pt, _, by injection h with h; rw [← h]⟩
    · exact ⟨pt, cs, by injection h with h; rw [← h]⟩

/-- A successful insertion preserves the boundary. -/
theorem insert_boundary (fuel : Nat) (n : quad_node_t α) (p t)
    (h : quad_node_insert fuel n p = some t) : t.boundary = n.boundary := by
  obtain ⟨tm, com, bnd, pt, cs⟩ := n
  obtain ⟨pt', cs', rfl⟩ := insert_shape fuel tm com bnd pt cs p t h
  rfl

/-!  Unfolding lemmas for quad_node_insert. -/

theorem insert_not_contains (f : Nat) (tm : α) (com bnd pt cs p)
    (h : bnd.contains p.position = false) :
    quad_node_insert (f + 1) (.mk tm com bnd pt cs) p =
      some (.mk tm com bnd pt cs) := by
  simp [quad_node_insert, h]

theorem insert_empty_leaf (f : Nat) (tm : α) (com bnd p)
    (h : bnd.contains p.position = true) :
    quad_node_insert (f + 1) (.mk tm com bnd none []) p =
      some (.mk tm com bnd (some p) []) := by
  simp [quad_node_insert, h]

theorem insert_occupied_leaf (f : Nat) (tm : α) (com bnd save p)
    (h : bnd.contains p.position = true) :
    quad_node_insert (f + 1) (.mk tm com bnd (some save) []) p =
      (for_each_child (fun c => quad_node_insert f c save)
          (quad_node_subdivide bnd)).bind
        (fun cs1 =>
          (for_each_child (fun c => quad_node_insert f c p) cs1).bind
            (fun cs2 => some (.mk tm com bnd none cs2))) := by
  cases hfe1 : for_each_child (fun c => quad_node_insert f c save)
      (quad_node_subdivide bnd) with
  | none => simp [quad_node_insert, h, hfe1]
  | some cs1 =>
    cases hfe2 : for_each_child (fun c => quad_node_insert f c p) cs1 with
    | none => simp [quad_node_insert, h, hfe1, hfe2]
    | some cs2 => simp [quad_node_insert, h, hfe1, hfe2]

theorem insert_internal (f : Nat) (tm : α) (com bnd pt c0 crest p)
    (h : bnd.contains p.position = true) :
    quad_node_insert (f + 1) (.mk tm com bnd pt (c0 :: crest)) p =
      (for_each_child (fun c => quad_node_insert f c p) (c0 :: crest)).bind
        (fun cs' => some (.mk tm com bnd pt cs')) := by
  cases hfe : for_each_child (fun c => quad_node_insert f c p)
      (c0 :: crest) with
  | none => simp [quad_node_insert, h, hfe]
  | some cs' => simp [quad_node_insert, h, hfe]

@[simp] theorem quad_node_init_boundary (b : rect_t α) :
    (quad_node_init b).boundary = b := rfl

@[simp] theorem subdivide_boundaries (b : rect_t α) :
    (quad_node_subdivide b).map quad_node_t.boundary = quad_boundaries b := by
  simp [quad_node_subdivide, List.map_map, Function.comp_def]

theorem subdivide_wf (b : rect_t α) :
    ∀ c ∈ quad_node_subdivide b, quad_wf c := by
  intro c hc
  simp only [quad_node_subdivide, List.mem_map] at hc
  obtain ⟨q, _, rfl⟩ := hc
  exact quad_wf_init q

@[simp] theorem subdivide_mass_sum (b : rect_t α) :
    occupant_mass_sum_list (quad_node_subdivide b) = 0 := by
  simp [quad_node_subdivide, quad_boundaries, quad_node_init]

@[simp] theorem subdivide_occupants (b : rect_t α) :
    occupants_list (quad_node_subdivide b) = [] := by
  simp [quad_node_subdivide, quad_boundaries, quad_node_init]

/-!  Forall₂ helpers. -/

theorem forall2_four {R : quad_node_t α → quad_node_t α → Prop}
    {a b c d : quad_node_t α} {l : List (quad_node_t α)}
    (h : List.Forall₂ R [a, b, c, d] l) :
    ∃ a' b' c' d', l = [a', b', c', d'] ∧
      R a a' ∧ R b b' ∧ R c c' ∧ R d d' := by
  rcases h with _ | ⟨ha, h⟩
  rcases h with _ | ⟨hb, h⟩
  rcases h with _ | ⟨hc', h⟩
  rcases h with _ | ⟨hd, h⟩
  cases h
  exact ⟨_, _, _, _, rfl, ha, hb, hc', hd⟩

theorem forall2_mem_right {β γ : Type} {R : β → γ → Prop} :
    ∀ {cs : List β} {cs' : List γ}, List.Forall₂ R cs cs' →
      ∀ c' ∈ cs', ∃ c ∈ cs, R c c' := by
  intro cs cs' h
  induction h with
  | nil => intro c' hc'; cases hc'
  | cons hR _ ih =>
    intro c' hc'
    rcases List.mem_cons.mp hc' with rfl | hc'
    · exact ⟨_, by simp, hR⟩
    · obtain ⟨c, hc, hRc⟩ := ih c' hc'
      exact ⟨c, by simp [hc], hRc⟩

theorem forall2_boundary_map {R : quad_node_t α → quad_node_t α → Prop}
    (hR : ∀ c c', R c c' → c'.boundary = c.boundary) :
    ∀ {cs cs' : List (quad_node_t α)}, List.Forall₂ R cs cs' →
      cs'.map quad_node_t.boundary = cs.map quad_node_t.boundary := by
  intro cs cs' h
  induction h with
  | nil => rfl
  | cons hr _ ih => simp [ih, hR _ _ hr]

/-- Building the well-formed internal node back from a children list whose
elements are well-formed with the quadrant boundaries. -/
theorem quad_wf_node_of_forall2 (tm : α) (com bnd)
    (cs cs' : List (quad_node_t α))
    (hb : cs.map quad_node_t.boundary = quad_boundaries bnd)
    (h : List.Forall₂ (fun c c' => quad_wf c' ∧ c'.boundary = c.boundary)
      cs cs') :
    quad_wf (.mk tm com bnd none cs') := by
  have hlen : cs.length = 4 := by
    have := congrArg List.length hb
    simpa [quad_boundaries] using this
  rcases cs with _ | ⟨a, _ | ⟨b, _ | ⟨c, _ | ⟨d, _ | ⟨e, rest⟩⟩⟩⟩⟩ <;>
    simp at hlen
  obtain ⟨a', b', c', d', rfl, ⟨hwa, hba⟩, ⟨hwb, hbb⟩, ⟨hwc, hbc⟩,
    ⟨hwd, hbd⟩⟩ := forall2_four h
  simp only [List.map_cons, List.map_nil] at hb
  refine .node tm com bnd a' b' c' d' ?_ hwa hwb hwc hwd
  rw [hba, hbb, hbc, hbd, ← hb]

/-!  Preservation of the invariants by insertion. -/

/-- A successful insertion preserves well-formedness. -/
theorem insert_wf (fuel : Nat) :
    ∀ (n : quad_node_t α) p t, quad_wf n →
      quad_node_insert fuel n p = some t → quad_wf t := by
  induction fuel with
  | zero => intro n p t _ h; cases h
  | succ f IH =>
    intro n p t hwf h
    obtain ⟨tm, com, bnd, pt, cs⟩ := n
    by_cases hc : bnd.contains p.position = true
    · rcases cs with _ | ⟨c0, crest⟩
      · rcases pt with _ | save
        · rw [insert_empty_leaf f tm com bnd p hc] at h
          injection h with h
          subst h
          exact .leaf tm com bnd (some p)
            (fun q hq => by injection hq with hq; subst hq; exact hc)
        · rw [insert_occupied_leaf f tm com bnd save p hc] at h
          cases hfe1 : for_each_child (fun c => quad_node_insert f c save)
              (quad_node_subdivide bnd) with
          | none => rw [hfe1, Option.none_bind] at h; cases h
          | some cs1 =>
            rw [hfe1, Option.some_bind] at h
            cases hfe2 : for_each_child (fun c => quad_node_insert f c p)
                cs1 with
            | none => rw [hfe2, Option.none_bind] at h; cases h
            | some cs2 =>
              rw [hfe2, Option.some_bind] at h
              injection h with h
              subst h
              have h1 : List.Forall₂
                  (fun c c' => quad_wf c' ∧ c'.boundary = c.boundary)
                  (quad_node_subdivide bnd) cs1 :=
                for_each_child_forall2 _ _ _ _
                  (fun c hcm c' hc' =>
                    ⟨IH c save c' (subdivide_wf bnd c hcm) hc',
                     insert_boundary f c save c' hc'⟩) hfe1
              have hb1 : cs1.map quad_node_t.boundary = quad_boundaries bnd := by
                rw [forall2_boundary_map (fun c c' hr => hr.2) h1,
                  subdivide_boundaries]
              have hwf1 : ∀ c ∈ cs1, quad_wf c := by
                intro c hcm
                obtain ⟨c₀, _, hR⟩ := forall2_mem_right h1 c hcm
                exact hR.1
              have h2 : List.Forall₂
                  (fun c c' => quad_wf c' ∧ c'.boundary = c.boundary)
                  cs1 cs2 :=
                for_each_child_forall2 _ _ _ _
                  (fun c hcm c' hc' =>
                    ⟨IH c p c' (hwf1 c hcm) hc',
                     insert_boundary f c p c' hc'⟩) hfe2
              exact quad_wf_node_of_forall2 tm com bnd cs1 cs2 hb1 h2
      · cases hwf with
        | node _ _ _ c0 c1' c2' c3' hbs hw0 hw1 hw2 hw3 =>
          rw [insert_internal f tm com bnd none c0 [c1', c2', c3'] p hc] at h
          cases hfe : for_each_child (fun c => quad_node_insert f c p)
              [c0, c1', c2', c3'] with
          | none => rw [hfe, Option.none_bind] at h; cases h
          | some cs' =>
            rw [hfe, Option.some_bind] at h
            injection h with h
            subst h
            have hwall : ∀ c ∈ [c0, c1', c2', c3'], quad_wf c := by
              intro c hcm
              rcases List.mem_cons.mp hcm with rfl | hcm
              · exact hw0
              rcases List.mem_cons.mp hcm with rfl | hcm
              · exact hw1
              rcases List.mem_cons.mp hcm with rfl | hcm
              · exact hw2
              rcases List.mem_cons.mp hcm with rfl | hcm
              · exact hw3
              cases hcm
            have h2 : List.Forall₂
                (fun c c' => quad_wf c' ∧ c'.boundary = c.boundary)
                [c0, c1', c2', c3'] cs' :=
              for_each_child_forall2 _ _ _ _
                (fun c hcm c' hc' =>
                  ⟨IH c p c' (hwall c hcm) hc',
                   insert_boundary f c p c' hc'⟩) hfe
            exact quad_wf_node_of_forall2 tm com bnd _ cs'
              (by simpa using hbs) h2
    · have hc' : bnd.contains p.position = false := by
        revert hc
        cases bnd.contains p.position <;> simp
      rw [insert_not_contains f tm com bnd pt cs p hc'] at h
      injection h with h
      subst h
      exact hwf

theorem subdivide_tm_zero (b : rect_t α) :
    ∀ c ∈ quad_node_subdivide b, tm_zero c := by
  intro c hc
  simp only [quad_node_subdivide, List.mem_map] at hc
  obtain ⟨q, _, rfl⟩ := hc
  exact tm_zero_init q

/-- A successful insertion keeps all total_mass fields zero. -/
theorem insert_tm_zero (fuel : Nat) :
    ∀ (n : quad_node_t α) p t, tm_zero n →
      quad_node_insert fuel n p = some t → tm_zero t := by
  induction fuel with
  | zero => intro n p t _ h; cases h
  | succ f IH =>
    intro n p t htz h
    obtain ⟨tm, com, bnd, pt, cs⟩ := n
    cases htz with
    | mk _ _ _ _ hall =>
      by_cases hc : bnd.contains p.position = true
      · rcases cs with _ | ⟨c0, crest⟩
        · rcases pt with _ | save
          · rw [insert_empty_leaf f 0 com bnd p hc] at h
            injection h with h
            subst h
            exact .mk com bnd (some p) [] (fun c hcm => by cases hcm)
          · rw [insert_occupied_leaf f 0 com bnd save p hc] at h
            cases hfe1 : for_each_child (fun c => quad_node_insert f c save)
                (quad_node_subdivide bnd) with
            | none => rw [hfe1, Option.none_bind] at h; cases h
            | some cs1 =>
              rw [hfe1, Option.some_bind] at h
              cases hfe2 : for_each_child (fun c => quad_node_insert f c p)
                  cs1 with
              | none => rw [hfe2, Option.none_bind] at h; cases h
              | some cs2 =>
                rw [hfe2, Option.some_bind] at h
                injection h with h
                subst h
                have h1 : List.Forall₂ (fun c c' => tm_zero c')
                    (quad_node_subdivide bnd) cs1 :=
                  for_each_child_forall2 _ _ _ _
                    (fun c hcm c' hc' =>
                      IH c save c' (subdivide_tm_zero bnd c hcm) hc') hfe1
                have h2 : List.Forall₂ (fun c c' => tm_zero c') cs1 cs2 :=
                  for_each_child_forall2 _ _ _ _
                    (fun c hcm c' hc' => by
                      obtain ⟨c₀, _, hz⟩ := forall2_mem_right h1 c hcm
                      exact IH c p c' hz hc') hfe2
                refine .mk com bnd none cs2 (fun c hcm => ?_)
                obtain ⟨c₀, _, hz⟩ := forall2_mem_right h2 c hcm
                exact hz
        · rw [insert_internal f 0 com bnd pt c0 crest p hc] at h
          cases hfe : for_each_child (fun c => quad_node_insert f c p)
              (c0 :: crest) with
          | none => rw [hfe, Option.none_bind] at h; cases h
          | some cs' =>
            rw [hfe, Option.some_bind] at h
            injection h with h
            subst h
            have h2 : List.Forall₂ (fun c c' => tm_zero c') (c0 :: crest)
                cs' :=
              for_each_child_forall2 _ _ _ _
                (fun c hcm c' hc' => IH c p c' (hall c hcm) hc') hfe
            refine .mk com bnd pt cs' (fun c hcm => ?_)
            obtain ⟨c₀, _, hz⟩ := forall2_mem_right h2 c hcm
            exact hz
      · have hc' : bnd.contains p.position = false := by
          revert hc
          cases bnd.contains p.position <;> simp
        rw [insert_not_contains f 0 com bnd pt cs p hc'] at h
        injection h with h
        subst h
        exact .mk com bnd pt cs hall

/-- Occupant membership after the traversal of the children list. -/
theorem forall2_occ_mem {x : point_t α} :
    ∀ {cs cs' : List (quad_node_t α)},
      List.Forall₂ (fun c c' => ∀ q ∈ occupants c', q ∈ occupants c ∨ q = x)
        cs cs' →
      ∀ q ∈ occupants_list cs', q ∈ occupants_list cs ∨ q = x := by
  intro cs cs' h
  induction h with
  | nil => intro q hq; simp at hq
  | cons hR _ ih =>
    intro q hq
    rw [occupants_list_cons, List.mem_append] at hq
    rw [occupants_list_cons]
    rcases hq with hq | hq
    · rcases hR q hq with hq' | hq'
      · exact Or.inl (List.mem_append.mpr (Or.inl hq'))
      · exact Or.inr hq'
    · rcases ih q hq with hq' | hq'
      · exact Or.inl (List.mem_append.mpr (Or.inr hq'))
      · exact Or.inr hq'

/-- Every occupant of a tree produced by insertion is an occupant of the old
tree or the inserted body. -/
theorem insert_occ_mem (fuel : Nat) :
    ∀ (n : quad_node_t α) p t, quad_node_insert fuel n p = some t →
      ∀ q ∈ occupants t, q ∈ occupants n ∨ q = p := by
  induction fuel with
  | zero => intro n p t h; cases h
  | succ f IH =>
    intro n p t h q hq
    obtain ⟨tm, com, bnd, pt, cs⟩ := n
    by_cases hc : bnd.contains p.position = true
    · rcases cs with _ | ⟨c0, crest⟩
      · rcases pt with _ | save
        · rw [insert_empty_leaf f tm com bnd p hc] at h
          injection h with h
          subst h
          simp only [occupants_mk, occupants_list_nil, Option.toList_some,
            List.append_nil, List.mem_singleton] at hq
          exact Or.inr hq
        · rw [insert_occupied_leaf f tm com bnd save p hc] at h
          cases hfe1 : for_each_child (fun c => quad_node_insert f c save)
              (quad_node_subdivide bnd) with
          | none => rw [hfe1, Option.none_bind] at h; cases h
          | some cs1 =>
            rw [hfe1, Option.some_bind] at h
            cases hfe2 : for_each_child (fun c => quad_node_insert f c p)
                cs1 with
            | none => rw [hfe2, Option.none_bind] at h; cases h
            | some cs2 =>
              rw [hfe2, Option.some_bind] at h
              injection h with h
              subst h
              have h1 := for_each_child_forall2
                (fun c => quad_node_insert f c save)
                (fun c c' => ∀ q ∈ occupants c', q ∈ occupants c ∨ q = save)
                (quad_node_subdivide bnd) cs1
                (fun c _ c' hc' => IH c save c' hc') hfe1
              have h2 := for_each_child_forall2
                (fun c => quad_node_insert f c p)
                (fun c c' => ∀ q ∈ occupants c', q ∈ occupants c ∨ q = p)
                cs1 cs2 (fun c _ c' hc' => IH c p c' hc') hfe2
              simp only [occupants_mk, Option.toList_none,
                List.nil_append] at hq
              rcases forall2_occ_mem h2 q hq with hq' | hq'
              · rcases forall2_occ_mem h1 q hq' with hq'' | hq''
                · rw [subdivide_occupants] at hq''
                  cases hq''
                · left
                  simp [hq'']
              · exact Or.inr hq'
      · rw [insert_internal f tm com bnd pt c0 crest p hc] at h
        cases hfe : for_each_child (fun c => quad_node_insert f c p)
            (c0 :: crest) with
        | none => rw [hfe, Option.none_bind] at h; cases h
        | some cs' =>
          rw [hfe, Option.some_bind] at h
          injection h with h
          subst h
          have h2 := for_each_child_forall2
            (fun c => quad_node_insert f c p)
            (fun c c' => ∀ q ∈ occupants c', q ∈ occupants c ∨ q = p)
            (c0 :: crest) cs' (fun c _ c' hc' => IH c p c' hc') hfe
          simp only [occupants_mk, List.mem_append] at hq ⊢
          rcases hq with hq | hq
          · exact Or.inl (Or.inl hq)
          · rcases forall2_occ_mem h2 q hq with hq' | hq'
            · exact Or.inl (Or.inr hq')
            · exact Or.inr hq'
    · have hc' : bnd.contains p.position = false := by
        revert hc
        cases bnd.contains p.position <;> simp
      rw [insert_not_contains f tm com bnd pt cs p hc'] at h
      injection h with h
      subst h
      exact Or.inl hq

/-- Mass bookkeeping for the traversal of the children list. -/
theorem forall2_occ_sum (δ : quad_node_t α → α) :
    ∀ {cs cs' : List (quad_node_t α)},
      List.Forall₂
        (fun c c' => occupant_mass_sum c' = occupant_mass_sum c + δ c)
        cs cs' →
      occupant_mass_sum_list cs' =
        occupant_mass_sum_list cs + (cs.map δ).sum := by
  intro cs cs' h
  induction h with
  | nil => simp
  | cons hR _ ih =>
    simp only [occupant_mass_sum_list_cons, List.map_cons, List.sum_cons, ih,
      hR]
    ring

/-- A children list whose boundaries are the quadrants of b counts a point
exactly once. -/
theorem boundary_indicator (cs : List (quad_node_t α)) (b : rect_t α)
    (v : vec2_t α) (m : α)
    (hb : cs.map quad_node_t.boundary = quad_boundaries b) :
    (cs.map (fun c => if c.boundary.contains v = true then m else 0)).sum =
      if b.contains v = true then m else 0 := by
  have hmm : cs.map (fun c => if c.boundary.contains v = true then m else 0) =
      (cs.map quad_node_t.boundary).map
        (fun q => if q.contains v = true then m else 0) := by
    rw [List.map_map]
    exact List.map_congr_left (fun c _ => rfl)
  rw [hmm, hb, quad_indicator_sum]

/-- The occupant mass accounting of one insertion: a successful
quad_node_insert adds the body's mass when the node's boundary contains its
position and adds nothing otherwise. -/
theorem insert_mass (fuel : Nat) :
    ∀ (n : quad_node_t α) p t, quad_wf n →
      quad_node_insert fuel n p = some t →
      occupant_mass_sum t = occupant_mass_sum n +
        (if n.boundary.contains p.position = true then p.mass else 0) := by
  induction fuel with
  | zero => intro n p t _ h; cases h
  | succ f IH =>
    intro n p t hwf h
    obtain ⟨tm, com, bnd, pt, cs⟩ := n
    by_cases hc : bnd.contains p.position = true
    · rcases cs with _ | ⟨c0, crest⟩
      · rcases pt with _ | save
        · rw [insert_empty_leaf f tm com bnd p hc] at h
          injection h with h
          subst h
          simp [hc, add_comm]
        · have hsave : bnd.contains save.position = true := by
            cases hwf with
            | leaf _ _ _ _ hocc => exact hocc save rfl
          rw [insert_occupied_leaf f tm com bnd save p hc] at h
          cases hfe1 : for_each_child (fun c => quad_node_insert f c save)
              (quad_node_subdivide bnd) with
          | none => rw [hfe1, Option.none_bind] at h; cases h
          | some cs1 =>
            rw [hfe1, Option.some_bind] at h
            cases hfe2 : for_each_child (fun c => quad_node_insert f c p)
                cs1 with
            | none => rw [hfe2, Option.none_bind] at h; cases h
            | some cs2 =>
              rw [hfe2, Option.some_bind] at h
              injection h with h
              subst h
              have h1 : List.Forall₂
                  (fun c c' =>
                    (occupant_mass_sum c' = occupant_mass_sum c +
                      (if c.boundary.contains save.position = true then
                        save.mass else 0)) ∧
                    quad_wf c' ∧ c'.boundary = c.boundary)
                  (quad_node_subdivide bnd) cs1 :=
                for_each_child_forall2 _ _ _ _
                  (fun c hcm c' hc' =>
                    ⟨IH c save c' (subdivide_wf bnd c hcm) hc',
                     insert_wf f c save c' (subdivide_wf bnd c hcm) hc',
                     insert_boundary f c save c' hc'⟩) hfe1
              have hb1 : cs1.map quad_node_t.boundary =
                  quad_boundaries bnd := by
                rw [forall2_boundary_map (fun c c' hr => hr.2.2) h1,
                  subdivide_boundaries]
              have hwf1 : ∀ c ∈ cs1, quad_wf c := by
                intro c hcm
                obtain ⟨c₀, _, hR⟩ := forall2_mem_right h1 c hcm
                exact hR.2.1
              have hsum1 : occupant_mass_sum_list cs1 = save.mass := by
                have := forall2_occ_sum
                  (fun c => if c.boundary.contains save.position = true then
                    save.mass else 0) (h1.imp (fun a b hr => hr.1))
                rw [this, subdivide_mass_sum,
                  boundary_indicator _ bnd save.position save.mass
                    (subdivide_boundaries bnd), if_pos hsave, zero_add]
              have h2 : List.Forall₂
                  (fun c c' =>
                    occupant_mass_sum c' = occupant_mass_sum c +
                      (if c.boundary.contains p.position = true then
                        p.mass else 0)) cs1 cs2 :=
                for_each_child_forall2 _ _ _ _
                  (fun c hcm c' hc' => IH c p c' (hwf1 c hcm) hc') hfe2
              have hsum2 : occupant_mass_sum_list cs2 =
                  save.mass + p.mass := by
                rw [forall2_occ_sum _ h2, hsum1,
                  boundary_indicator _ bnd p.position p.mass hb1, if_pos hc]
              simp only [occupant_mass_sum_mk_none,
                occupant_mass_sum_mk_some, occupant_mass_sum_list_nil,
                quad_node_t.boundary_mk, hsum2, hc, if_true]
              ring
      · cases hwf with
        | node _ _ _ c0 c1' c2' c3' hbs hw0 hw1 hw2 hw3 =>
          rw [insert_internal f tm com bnd none c0 [c1', c2', c3'] p hc] at h
          cases hfe : for_each_child (fun c => quad_node_insert f c p)
              [c0, c1', c2', c3'] with
          | none => rw [hfe, Option.none_bind] at h; cases h
          | some cs' =>
            rw [hfe, Option.some_bind] at h
            injection h with h
            subst h
            have hwall : ∀ c ∈ [c0, c1', c2', c3'], quad_wf c := by
              intro c hcm
              rcases List.mem_cons.mp hcm with rfl | hcm
              · exact hw0
              rcases List.mem_cons.mp hcm with rfl | hcm
              · exact hw1
              rcases List.mem_cons.mp hcm with rfl | hcm
              · exact hw2
              rcases List.mem_cons.mp hcm with rfl | hcm
              · exact hw3
              cases hcm
            have h2 : List.Forall₂
                (fun c c' =>
                  occupant_mass_sum c' = occupant_mass_sum c +
                    (if c.boundary.contains p.position = true then
                      p.mass else 0)) [c0, c1', c2', c3'] cs' :=
              for_each_child_forall2 _ _ _ _
                (fun c hcm c' hc' => IH c p c' (hwall c hcm) hc') hfe
            have hbcs : ([c0, c1', c2', c3'].map quad_node_t.boundary) =
                quad_boundaries bnd := by simpa using hbs
            have hsum : occupant_mass_sum_list cs' =
                occupant_mass_sum_list [c0, c1', c2', c3'] + p.mass := by
              rw [forall2_occ_sum _ h2,
                boundary_indicator _ bnd p.position p.mass hbcs, if_pos hc]
            simp only [occupant_mass_sum_mk_none, hsum,
              quad_node_t.boundary_mk, hc, if_true]
    · have hc' : bnd.contains p.position = false := by
        revert hc
        cases bnd.contains p.position <;> simp
      rw [insert_not_contains f tm com bnd pt cs p hc'] at h
      injection h with h
      subst h
      simp [hc']

/-!  Aggregation computes the occupant mass sum. -/

@[simp] theorem compute_mass_list_nil :
    quad_node_compute_mass_list ([] : List (quad_node_t α)) = [] := by
  rw [quad_node_compute_mass_list]

@[simp] theorem compute_mass_list_cons (c : quad_node_t α) (cs) :
    quad_node_compute_mass_list (c :: cs) =
      quad_node_compute_mass c :: quad_node_compute_mass_list cs := by
  rw [quad_node_compute_mass_list]

theorem compute_mass_leaf_some (tm : α) (com bnd q) :
    quad_node_compute_mass (.mk tm com bnd (some q) []) =
      .mk q.mass q.position bnd (some q) [] := by
  simp [quad_node_compute_mass]

theorem compute_mass_leaf_none (tm : α) (com bnd) :
    quad_node_compute_mass (.mk tm com bnd none []) =
      .mk tm com bnd none [] := by
  simp [quad_node_compute_mass]

theorem compute_mass_node_total (tm : α) (com bnd pt c0 crest) :
    (quad_node_compute_mass (.mk tm com bnd pt (c0 :: crest))).total_mass =
      children_total_mass (quad_node_compute_mass_list (c0 :: crest)) := by
  simp [quad_node_compute_mass]

theorem foldl_add_total_mass (cs : List (quad_node_t α)) :
    ∀ a : α, cs.foldl (fun a c => a + c.total_mass) a =
      a + (cs.map quad_node_t.total_mass).sum := by
  induction cs with
  | nil => intro a; simp
  | cons c rest ih => intro a; simp [ih, add_assoc]

theorem children_total_mass_eq (cs : List (quad_node_t α)) :
    children_total_mass cs = (cs.map quad_node_t.total_mass).sum := by
  rw [children_total_mass, foldl_add_total_mass, zero_add]

/-- After aggregation, the root's total_mass is the sum of the masses of the
occupants, for any tree produced by insertions (well-formed shape with all
total_mass fields still zero). -/
theorem compute_mass_total (t : quad_node_t α) (hwf : quad_wf t)
    (htz : tm_zero t) :
    (quad_node_compute_mass t).total_mass = occupant_mass_sum t := by
  induction hwf with
  | leaf tm com bnd pt hocc =>
    cases pt with
    | none =>
      cases htz with
      | mk _ _ _ _ _ => simp [compute_mass_leaf_none]
    | some q => simp [compute_mass_leaf_some]
  | node tm com bnd c0 c1 c2 c3 hbs h0 h1 h2 h3 ih0 ih1 ih2 ih3 =>
    have hall : ∀ c ∈ [c0, c1, c2, c3], tm_zero c := by
      cases htz with
      | mk _ _ _ _ hall => exact hall
    rw [compute_mass_node_total, children_total_mass_eq]
    simp only [compute_mass_list_cons, compute_mass_list_nil, List.map_cons,
      List.map_nil, List.sum_cons, List.sum_nil]
    rw [ih0 (hall c0 (by simp)), ih1 (hall c1 (by simp)),
      ih2 (hall c2 (by simp)), ih3 (hall c3 (by simp))]
    simp

/-- Accumulated invariants and mass accounting of inserting a whole list of
bodies. -/
theorem insert_all_props (fuel : Nat) (ps : List (point_t α)) :
    ∀ n t, quad_wf n → tm_zero n →
      quad_node_insert_all fuel n ps = some t →
      quad_wf t ∧ tm_zero t ∧ t.boundary = n.boundary ∧
      occupant_mass_sum t = occupant_mass_sum n +
        ((ps.filter (fun p => n.boundary.contains p.position)).map
          point_t.mass).sum := by
  induction ps with
  | nil =>
    intro n t hwf htz h
    simp only [quad_node_insert_all, Option.some.injEq] at h
    subst h
    simp [hwf, htz]
  | cons p rest ihp =>
    intro n t hwf htz h
    simp only [quad_node_insert_all] at h
    cases hi : quad_node_insert fuel n p with
    | none => rw [hi] at h; cases h
    | some n' =>
      rw [hi] at h
      have hwf' := insert_wf fuel n p n' hwf hi
      have htz' := insert_tm_zero fuel n p n' htz hi
      have hbnd := insert_boundary fuel n p n' hi
      have hmass := insert_mass fuel n p n' hwf hi
      obtain ⟨hwt, htt, hbt, hmt⟩ := ihp n' t hwf' htz' h
      rw [hbnd] at hmt
      refine ⟨hwt, htt, by rw [hbt, hbnd], ?_⟩
      rw [hmt, hmass]
      by_cases hcp : n.boundary.contains p.position = true
      · simp only [List.filter_cons, hcp, if_true, List.map_cons,
          List.sum_cons]
        ring
      · have hcp' : n.boundary.contains p.position = false := by
          revert hcp
          cases n.boundary.contains p.position <;> simp
        simp only [List.filter_cons, hcp', if_false, Bool.false_eq_true]
        ring

/-!  Claim C1: mass conservation and the silent-drop policy. -/

/-- C1: for every finite list of bodies inserted into a fresh root (with any
fuel that lets every insertion finish) followed by one aggregation pass, the
root's total_mass is exactly the sum of the masses of the bodies whose
position lies inside the root boundary; and an insertion of a body whose
position lies outside a node's boundary returns the node unchanged. -/
theorem insert_all_mass_conservation (bnd : rect_t α) (ps : List (point_t α))
    (fuel : Nat) (t : quad_node_t α)
    (h : quad_node_insert_all fuel (quad_node_init bnd) ps = some t) :
    (quad_node_compute_mass t).total_mass =
      ((ps.filter (fun p => bnd.contains p.position)).map
        point_t.mass).sum ∧
    ∀ (f' : Nat) (tm : α) (com : vec2_t α) (bnd' : rect_t α)
      (pt : Option (point_t α)) (cs : List (quad_node_t α)) (p : point_t α),
      bnd'.contains p.position = false →
      quad_node_insert (f' + 1) (.mk tm com bnd' pt cs) p =
        some (.mk tm com bnd' pt cs) := by
  obtain ⟨hwt, htt, hbt, hmt⟩ :=
    insert_all_props fuel ps (quad_node_init bnd) t (quad_wf_init bnd)
      (tm_zero_init bnd) h
  constructor
  · rw [compute_mass_total t hwt htt, hmt]
    simp [quad_node_init]
  · intro f' tm com bnd' pt cs p hout
    exact insert_not_contains f' tm com bnd' pt cs p hout

unseal Rat.add Rat.mul Rat.inv Rat.sub in
/-- Witness for C1: bodies of mass 2 and 3 inside the boundary (0, 0, 4, 4)
and one of mass 5 outside it; the aggregated root mass is the filtered sum,
and a concrete out-of-bounds insertion leaves a node unchanged. -/
theorem insert_all_mass_conservation_witness :
    ∃ t, quad_node_insert_all 5 (quad_node_init (⟨0, 0, 4, 4⟩ : rect_t ℚ))
        [point_init 2 ⟨1, 1⟩, point_init 3 ⟨3, 1⟩, point_init 5 ⟨10, 10⟩] =
        some t ∧
      (quad_node_compute_mass t).total_mass =
        (([point_init (2:ℚ) ⟨1, 1⟩, point_init 3 ⟨3, 1⟩,
            point_init 5 ⟨10, 10⟩].filter
          (fun p => (⟨0, 0, 4, 4⟩ : rect_t ℚ).contains p.position)).map
            point_t.mass).sum ∧
      quad_node_insert 1 (.mk (0:ℚ) ⟨0, 0⟩ ⟨0, 0, 4, 4⟩ none [])
          (point_init 5 ⟨10, 10⟩) =
        some (.mk (0:ℚ) ⟨0, 0⟩ ⟨0, 0, 4, 4⟩ none []) := by
  cases hrun : quad_node_insert_all 5
      (quad_node_init (⟨0, 0, 4, 4⟩ : rect_t ℚ))
      [point_init 2 ⟨1, 1⟩, point_init 3 ⟨3, 1⟩, point_init 5 ⟨10, 10⟩] with
  | none =>
    have hs : (quad_node_insert_all 5
        (quad_node_init (⟨0, 0, 4, 4⟩ : rect_t ℚ))
        [point_init 2 ⟨1, 1⟩, point_init 3 ⟨3, 1⟩,
          point_init 5 ⟨10, 10⟩]).isSome = true := by decide
    rw [hrun] at hs
    simp at hs
  | some t =>
    obtain ⟨hm, hdrop⟩ := insert_all_mass_conservation ⟨0, 0, 4, 4⟩
      [point_init 2 ⟨1, 1⟩, point_init 3 ⟨3, 1⟩, point_init 5 ⟨10, 10⟩] 5 t
      hrun
    exact ⟨t, rfl, hm, hdrop 0 0 ⟨0, 0⟩ ⟨0, 0, 4, 4⟩ none []
      (point_init 5 ⟨10, 10⟩) (by decide)⟩

/-!  Claim C3: leaf/internal exclusivity. -/

/-- Per-node structural facts of a well-formed tree. -/
theorem quad_wf_node_props (t : quad_node_t α) (hwf : quad_wf t) :
    ∀ n ∈ all_nodes t,
      (n.children.length = 0 ∨ n.children.length = 4) ∧
      (quad_node_is_leaf n = true ↔ n.children = []) ∧
      n.point.toList.length ≤ 1 ∧
      (n.children ≠ [] → n.point = none ∧
        n.children.map quad_node_t.boundary = quad_boundaries n.boundary) := by
  induction hwf with
  | leaf tm com bnd pt hocc =>
    intro n hn
    simp only [all_nodes_mk, all_nodes_list_nil, List.mem_singleton] at hn
    subst hn
    refine ⟨Or.inl rfl, by simp [quad_node_is_leaf], ?_,
      fun hne => absurd rfl hne⟩
    cases pt <;> simp
  | node tm com bnd c0 c1 c2 c3 hbs h0 h1 h2 h3 ih0 ih1 ih2 ih3 =>
    intro n hn
    simp only [all_nodes_mk, all_nodes_list_cons, all_nodes_list_nil,
      List.append_nil, List.mem_cons, List.mem_append] at hn
    rcases hn with rfl | hn
    · refine ⟨Or.inr rfl, by simp [quad_node_is_leaf], by simp,
        fun hne => ⟨rfl, by simpa using hbs⟩⟩
    · rcases hn with hn | hn | hn | hn
      · exact ih0 n hn
      · exact ih1 n hn
      · exact ih2 n hn
      · exact ih3 n hn

/-- C3: after any sequence of insertions on a fresh root, every node of the
tree has all four children absent or all four present (with the boundaries
produced by the midpoint subdivision), is a leaf exactly when all children
are absent, stores at most one occupant, and stores no occupant when it is
internal. -/
theorem insert_all_node_invariants (bnd : rect_t α) (ps : List (point_t α))
    (fuel : Nat) (t : quad_node_t α)
    (h : quad_node_insert_all fuel (quad_node_init bnd) ps = some t) :
    ∀ n ∈ all_nodes t,
      (n.children.length = 0 ∨ n.children.length = 4) ∧
      (quad_node_is_leaf n = true ↔ n.children = []) ∧
      n.point.toList.length ≤ 1 ∧
      (n.children ≠ [] → n.point = none ∧
        n.children.map quad_node_t.boundary = quad_boundaries n.boundary) :=
  quad_wf_node_props t
    (insert_all_props fuel ps (quad_node_init bnd) t (quad_wf_init bnd)
      (tm_zero_init bnd) h).1

unseal Rat.add Rat.mul Rat.inv Rat.sub in
/-- Witness for C3 on a concrete two-body tree that forces one
subdivision. -/
theorem insert_all_node_invariants_witness :
    ∃ t, quad_node_insert_all 5 (quad_node_init (⟨0, 0, 4, 4⟩ : rect_t ℚ))
        [point_init 2 ⟨1, 1⟩, point_init 3 ⟨3, 1⟩] = some t ∧
      ∀ n ∈ all_nodes t,
        (n.children.length = 0 ∨ n.children.length = 4) ∧
        (quad_node_is_leaf n = true ↔ n.children = []) ∧
        n.point.toList.length ≤ 1 ∧
        (n.children ≠ [] → n.point = none ∧
          n.children.map quad_node_t.boundary =
            quad_boundaries n.boundary) := by
  cases hrun : quad_node_insert_all 5
      (quad_node_init (⟨0, 0, 4, 4⟩ : rect_t ℚ))
      [point_init 2 ⟨1, 1⟩, point_init 3 ⟨3, 1⟩] with
  | none =>
    have hs : (quad_node_insert_all 5
        (quad_node_init (⟨0, 0, 4, 4⟩ : rect_t ℚ))
        [point_init 2 ⟨1, 1⟩, point_init 3 ⟨3, 1⟩]).isSome = true := by
      decide
    rw [hrun] at hs
    simp at hs
  | some t =>
    exact ⟨t, rfl, insert_all_node_invariants ⟨0, 0, 4, 4⟩
      [point_init 2 ⟨1, 1⟩, point_init 3 ⟨3, 1⟩] 5 t hrun⟩

/-!  Fuel monotonicity of insertion. -/

theorem bool_eq_false {b : Bool} (h : ¬ b = true) : b = false := by
  cases b
  · rfl
  · exact absurd rfl h

theorem for_each_child_mono (g g' : quad_node_t α → Option (quad_node_t α))
    (hmono : ∀ c c', g c = some c' → g' c = some c') :
    ∀ cs cs', for_each_child g cs = some cs' →
      for_each_child g' cs = some cs' := by
  intro cs
  induction cs with
  | nil => intro cs' h; exact h
  | cons c rest ih =>
    intro cs' h
    simp only [for_each_child] at h ⊢
    cases hg : g c with
    | none => rw [hg] at h; cases h
    | some c1 =>
      rw [hg] at h
      rw [hmono c c1 hg]
      cases hrest : for_each_child g rest with
      | none => rw [hrest] at h; cases h
      | some rest1 => rw [hrest] at h; rw [ih rest1 hrest]; exact h

/-- More fuel never changes a successful insertion. -/
theorem insert_fuel_mono : ∀ (f f' : Nat), f ≤ f' →
    ∀ (n : quad_node_t α) p t,
      quad_node_insert f n p = some t → quad_node_insert f' n p = some t := by
  intro f
  induction f with
  | zero => intro f' _ n p t h; cases h
  | succ f IH =>
    intro f' hle n p t h
    obtain ⟨f'', rfl⟩ : ∃ f'', f' = f'' + 1 := ⟨f' - 1, by omega⟩
    have hle' : f ≤ f'' := by omega
    obtain ⟨tm, com, bnd, pt, cs⟩ := n
    by_cases hc : bnd.contains p.position = true
    · rcases cs with _ | ⟨c0, crest⟩
      · rcases pt with _ | save
        · rw [insert_empty_leaf f tm com bnd p hc] at h
          rw [insert_empty_leaf f'' tm com bnd p hc]
          exact h
        · rw [insert_occupied_leaf f tm com bnd save p hc] at h
          rw [insert_occupied_leaf f'' tm com bnd save p hc]
          cases hfe1 : for_each_child (fun c => quad_node_insert f c save)
              (quad_node_subdivide bnd) with
          | none => rw [hfe1, Option.none_bind] at h; cases h
          | some cs1 =>
            rw [hfe1, Option.some_bind] at h
            rw [for_each_child_mono _ _
              (fun c c' hcc => IH f'' hle' c save c' hcc) _ _ hfe1,
              Option.some_bind]
            cases hfe2 : for_each_child (fun c => quad_node_insert f c p)
                cs1 with
            | none => rw [hfe2, Option.none_bind] at h; cases h
            | some cs2 =>
              rw [hfe2, Option.some_bind] at h
              rw [for_each_child_mono _ _
                (fun c c' hcc => IH f'' hle' c p c' hcc) _ _ hfe2,
                Option.some_bind]
              exact h
      · rw [insert_internal f tm com bnd pt c0 crest p hc] at h
        rw [insert_internal f'' tm com bnd pt c0 crest p hc]
        cases hfe : for_each_child (fun c => quad_node_insert f c p)
            (c0 :: crest) with
        | none => rw [hfe, Option.none_bind] at h; cases h
        | some cs' =>
          rw [hfe, Option.some_bind] at h
          rw [for_each_child_mono _ _
            (fun c c' hcc => IH f'' hle' c p c' hcc) _ _ hfe,
            Option.some_bind]
          exact h
    · have hc' := bool_eq_false hc
      rw [insert_not_contains f tm com bnd pt cs p hc'] at h
      rw [insert_not_contains f'' tm com bnd pt cs p hc']
      exact h

theorem insert_all_fuel_mono (f f' : Nat) (hle : f ≤ f') :
    ∀ (ps : List (point_t α)) n t,
      quad_node_insert_all f n ps = some t →
      quad_node_insert_all f' n ps = some t := by
  intro ps
  induction ps with
  | nil => intro n t h; exact h
  | cons p rest ih =>
    intro n t h
    simp only [quad_node_insert_all] at h ⊢
    cases hi : quad_node_insert f n p with
    | none => rw [hi] at h; cases h
    | some n' =>
      rw [hi] at h
      rw [insert_fuel_mono f f' hle n p n' hi]
      exact ih n' t h

/-!  Termination of insertion for distinct positions. -/

/-- Two contained points are separated by less than the boundary extents. -/
theorem contains_sep (b : rect_t α) (u v : vec2_t α)
    (hu : b.contains u = true) (hv : b.contains v = true)
    (hw : 0 < b.width) (hh : 0 < b.height) :
    |u.x - v.x| < b.width ∧ |u.y - v.y| < b.height := by
  rw [rect_contains_iff2] at hu hv
  exact ⟨interval_sep b.left b.width u.x v.x hu.1 hv.1 hw,
    interval_sep b.top b.height u.y v.y hu.2 hv.2 hh⟩

/-- Inserting into a fresh node stores the body exactly when the boundary
contains it. -/
theorem insert_init (f : Nat) (B : rect_t α) (v : point_t α) :
    quad_node_insert (f + 1) (quad_node_init B) v =
      some (.mk 0 ⟨0, 0⟩ B
        (if B.contains v.position = true then some v else none) []) := by
  by_cases hc : B.contains v.position = true
  · rw [if_pos hc]
    exact insert_empty_leaf f 0 ⟨0, 0⟩ B v hc
  · rw [if_neg hc]
    exact insert_not_contains f 0 ⟨0, 0⟩ B none [] v (bool_eq_false hc)

/-- Termination of the subdivision chain: inserting a body into a leaf
occupied by a body at a different position succeeds once the fuel covers the
number of halvings needed to separate the two positions. -/
theorem insert_occupied_chain : ∀ (k : Nat) (tm : α) (com : vec2_t α)
    (bnd : rect_t α) (q p : point_t α),
    0 < bnd.width → 0 < bnd.height →
    bnd.contains q.position = true → bnd.contains p.position = true →
    (bnd.width ≤ 2 ^ k * |q.position.x - p.position.x| ∨
     bnd.height ≤ 2 ^ k * |q.position.y - p.position.y|) →
    ∃ t, quad_node_insert (k + 2) (.mk tm com bnd (some q) []) p = some t := by
  intro k
  induction k with
  | zero =>
    intro tm com bnd q p hw hh hq hp hbound
    obtain ⟨hsx, hsy⟩ := contains_sep bnd q.position p.position hq hp hw hh
    rcases hbound with hb | hb
    · rw [pow_zero, one_mul] at hb
      linarith
    · rw [pow_zero, one_mul] at hb
      linarith
  | succ k IH =>
    intro tm com bnd q p hw hh hq hp hbound
    have h2k : (2:α) ^ (k + 1) = 2 * 2 ^ k := by ring
    rcases quad_contains_cases4 bnd p.position hp with
      ⟨hp0, hp1, hp2, hp3⟩ | ⟨hp0, hp1, hp2, hp3⟩ |
      ⟨hp0, hp1, hp2, hp3⟩ | ⟨hp0, hp1, hp2, hp3⟩
    · by_cases hqj : (⟨bnd.left, bnd.top, bnd.width / 2, bnd.height / 2⟩ :
          rect_t α).contains q.position = true
      · have hbound' :
            (⟨bnd.left, bnd.top, bnd.width / 2, bnd.height / 2⟩ :
              rect_t α).width ≤ 2 ^ k * |q.position.x - p.position.x| ∨
            (⟨bnd.left, bnd.top, bnd.width / 2, bnd.height / 2⟩ :
              rect_t α).height ≤ 2 ^ k * |q.position.y - p.position.y| := by
          rcases hbound with hb | hb
          · exact Or.inl (show bnd.width / 2 ≤ _ by rw [h2k] at hb; linarith)
          · exact Or.inr (show bnd.height / 2 ≤ _ by rw [h2k] at hb; linarith)
        obtain ⟨t', ht'⟩ :=
          IH 0 ⟨0, 0⟩ _ q p (half_pos hw) (half_pos hh) hqj hp0 hbound'
        rw [← Option.isSome_iff_exists]
        show (quad_node_insert ((k + 2) + 1)
          (.mk tm com bnd (some q) []) p).isSome = true
        rw [insert_occupied_leaf (k + 2) tm com bnd q p hp]
        have hf2 : k + 2 = (k + 1) + 1 := rfl
        rw [hf2] at ht' ⊢
        simp [for_each_child, quad_node_subdivide, quad_boundaries,
          insert_init, insert_not_contains, insert_empty_leaf, hp0, hp1,
          hp2, hp3, hqj, ht']
      · have hqj' := bool_eq_false hqj
        rw [← Option.isSome_iff_exists]
        show (quad_node_insert ((k + 2) + 1)
          (.mk tm com bnd (some q) []) p).isSome = true
        rw [insert_occupied_leaf (k + 2) tm com bnd q p hp]
        have hf2 : k + 2 = (k + 1) + 1 := rfl
        rw [hf2]
        simp [for_each_child, quad_node_subdivide, quad_boundaries,
          insert_init, insert_not_contains, insert_empty_leaf, hp0, hp1,
          hp2, hp3, hqj']
    · by_cases hqj : (⟨bnd.left + bnd.width / 2, bnd.top, bnd.width / 2,
          bnd.height / 2⟩ : rect_t α).contains q.position = true
      · have hbound' :
            (⟨bnd.left + bnd.width / 2, bnd.top, bnd.width / 2,
              bnd.height / 2⟩ :
              rect_t α).width ≤ 2 ^ k * |q.position.x - p.position.x| ∨
            (⟨bnd.left + bnd.width / 2, bnd.top, bnd.width / 2,
              bnd.height / 2⟩ :
              rect_t α).height ≤ 2 ^ k * |q.position.y - p.position.y| := by
          rcases hbound with hb | hb
          · exact Or.inl (show bnd.width / 2 ≤ _ by rw [h2k] at hb; linarith)
          · exact Or.inr (show bnd.height / 2 ≤ _ by rw [h2k] at hb; linarith)
        obtain ⟨t', ht'⟩ :=
          IH 0 ⟨0, 0⟩ _ q p (half_pos hw) (half_pos hh) hqj hp1 hbound'
        rw [← Option.isSome_iff_exists]
        show (quad_node_insert ((k + 2) + 1)
          (.mk tm com bnd (some q) []) p).isSome = true
        rw [insert_occupied_leaf (k + 2) tm com bnd q p hp]
        have hf2 : k + 2 = (k + 1) + 1 := rfl
        rw [hf2] at ht' ⊢
        simp [for_each_child, quad_node_subdivide, quad_boundaries,
          insert_init, insert_not_contains, insert_empty_leaf, hp0, hp1,
          hp2, hp3, hqj, ht']
      · have hqj' := bool_eq_false hqj
        rw [← Option.isSome_iff_exists]
        show (quad_node_insert ((k + 2) + 1)
          (.mk tm com bnd (some q) []) p).isSome = true
        rw [insert_occupied_leaf (k + 2) tm com bnd q p hp]
        have hf2 : k + 2 = (k + 1) + 1 := rfl
        rw [hf2]
        simp [for_each_child, quad_node_subdivide, quad_boundaries,
          insert_init, insert_not_contains, insert_empty_leaf, hp0, hp1,
          hp2, hp3, hqj']
    · by_cases hqj : (⟨bnd.left, bnd.top + bnd.height / 2, bnd.width / 2,
          bnd.height / 2⟩ : rect_t α).contains q.position = true
      · have hbound' :
            (⟨bnd.left, bnd.top + bnd.height / 2, bnd.width / 2,
              bnd.height / 2⟩ :
              rect_t α).width ≤ 2 ^ k * |q.position.x - p.position.x| ∨
            (⟨bnd.left, bnd.top + bnd.height / 2, bnd.width / 2,
              bnd.height / 2⟩ :
              rect_t α).height ≤ 2 ^ k * |q.position.y - p.position.y| := by
          rcases hbound with hb | hb
          · exact Or.inl (show bnd.width / 2 ≤ _ by rw [h2k] at hb; linarith)
          · exact Or.inr (show bnd.height / 2 ≤ _ by rw [h2k] at hb; linarith)
        obtain ⟨t', ht'⟩ :=
          IH 0 ⟨0, 0⟩ _ q p (half_pos hw) (half_pos hh) hqj hp2 hbound'
        rw [← Option.isSome_iff_exists]
        show (quad_node_insert ((k + 2) + 1)
          (.mk tm com bnd (some q) []) p).isSome = true
        rw [insert_occupied_leaf (k + 2) tm com bnd q p hp]
        have hf2 : k + 2 = (k + 1) + 1 := rfl
        rw [hf2] at ht' ⊢
        simp [for_each_child, quad_node_subdivide, quad_boundaries,
          insert_init, insert_not_contains, insert_empty_leaf, hp0, hp1,
          hp2, hp3, hqj, ht']
      · have hqj' := bool_eq_false hqj
        rw [← Option.isSome_iff_exists]
        show (quad_node_insert ((k + 2) + 1)
          (.mk tm com bnd (some q) []) p).isSome = true
        rw [insert_occupied_leaf (k + 2) tm com bnd q p hp]
        have hf2 : k + 2 = (k + 1) + 1 := rfl
        rw [hf2]
        simp [for_each_child, quad_node_subdivide, quad_boundaries,
          insert_init, insert_not_contains, insert_empty_leaf, hp0, hp1,
          hp2, hp3, hqj']
    · by_cases hqj : (⟨bnd.left + bnd.width / 2, bnd.top + bnd.height / 2,
          bnd.width / 2, bnd.height / 2⟩ :
            rect_t α).contains q.position = true
      · have hbound' :
            (⟨bnd.left + bnd.width / 2, bnd.top + bnd.height / 2,
              bnd.width / 2, bnd.height / 2⟩ :
              rect_t α).width ≤ 2 ^ k * |q.position.x - p.position.x| ∨
            (⟨bnd.left + bnd.width / 2, bnd.top + bnd.height / 2,
              bnd.width / 2, bnd.height / 2⟩ :
              rect_t α).height ≤ 2 ^ k * |q.position.y - p.position.y| := by
          rcases hbound with hb | hb
          · exact Or.inl (show bnd.width / 2 ≤ _ by rw [h2k] at hb; linarith)
          · exact Or.inr (show bnd.height / 2 ≤ _ by rw [h2k] at hb; linarith)
        obtain ⟨t', ht'⟩ :=
          IH 0 ⟨0, 0⟩ _ q p (half_pos hw) (half_pos hh) hqj hp3 hbound'
        rw [← Option.isSome_iff_exists]
        show (quad_node_insert ((k + 2) + 1)
          (.mk tm com bnd (some q) []) p).isSome = true
        rw [insert_occupied_leaf (k + 2) tm com bnd q p hp]
        have hf2 : k + 2 = (k + 1) + 1 := rfl
        rw [hf2] at ht' ⊢
        simp [for_each_child, quad_node_subdivide, quad_boundaries,
          insert_init, insert_not_contains, insert_empty_leaf, hp0, hp1,
          hp2, hp3, hqj, ht']
      · have hqj' := bool_eq_false hqj
        rw [← Option.isSome_iff_exists]
        show (quad_node_insert ((k + 2) + 1)
          (.mk tm com bnd (some q) []) p).isSome = true
        rw [insert_occupied_leaf (k + 2) tm com bnd q p hp]
        have hf2 : k + 2 = (k + 1) + 1 := rfl
        rw [hf2]
        simp [for_each_child, quad_node_subdivide, quad_boundaries,
          insert_init, insert_not_contains, insert_empty_leaf, hp0, hp1,
          hp2, hp3, hqj']

@[simp] theorem occupants_init (b : rect_t α) :
    occupants (quad_node_init b) = [] := by
  simp [quad_node_init]

/-- Enough fuel exists to insert a body into any well-formed tree with
positive boundary extents whose occupants all sit at positions different
from the body's. -/
theorem insert_exists [Archimedean α] (n : quad_node_t α) (hwf : quad_wf n) :
    ∀ p : point_t α, 0 < n.boundary.width → 0 < n.boundary.height →
      (∀ q ∈ occupants n, q.position ≠ p.position) →
      ∃ f t, quad_node_insert f n p = some t := by
  induction hwf with
  | leaf tm com bnd pt hocc =>
    intro p hw hh hdist
    rcases pt with _ | q
    · by_cases hc : bnd.contains p.position = true
      · exact ⟨1, _, insert_empty_leaf 0 tm com bnd p hc⟩
      · exact ⟨1, _, insert_not_contains 0 tm com bnd none [] p
          (bool_eq_false hc)⟩
    · by_cases hc : bnd.contains p.position = true
      · have hqc : bnd.contains q.position = true := hocc q rfl
        have hne : q.position ≠ p.position := hdist q (by simp)
        have hxy : q.position.x ≠ p.position.x ∨
            q.position.y ≠ p.position.y := by
          by_contra hcon
          push_neg at hcon
          exact hne ((vec2_eq_iff _ _).mpr hcon)
        rcases hxy with hax | hay
        · have habs : 0 < |q.position.x - p.position.x| :=
            abs_pos.mpr (sub_ne_zero.mpr hax)
          obtain ⟨k, hk⟩ := pow_unbounded_of_one_lt
            (bnd.width / |q.position.x - p.position.x|) (α := α) one_lt_two
          have hbound : bnd.width ≤ 2 ^ k * |q.position.x - p.position.x| :=
            le_of_lt ((div_lt_iff habs).mp hk)
          obtain ⟨t, ht⟩ := insert_occupied_chain k tm com bnd q p
            (by simpa using hw) (by simpa using hh) hqc hc (Or.inl hbound)
          exact ⟨k + 2, t, ht⟩
        · have habs : 0 < |q.position.y - p.position.y| :=
            abs_pos.mpr (sub_ne_zero.mpr hay)
          obtain ⟨k, hk⟩ := pow_unbounded_of_one_lt
            (bnd.height / |q.position.y - p.position.y|) (α := α)
            one_lt_two
          have hbound : bnd.height ≤
              2 ^ k * |q.position.y - p.position.y| :=
            le_of_lt ((div_lt_iff habs).mp hk)
          obtain ⟨t, ht⟩ := insert_occupied_chain k tm com bnd q p
            (by simpa using hw) (by simpa using hh) hqc hc (Or.inr hbound)
          exact ⟨k + 2, t, ht⟩
      · exact ⟨1, _, insert_not_contains 0 tm com bnd (some q) [] p
          (bool_eq_false hc)⟩
  | node tm com bnd c0 c1 c2 c3 hbs h0 h1 h2 h3 ih0 ih1 ih2 ih3 =>
    intro p hw hh hdist
    by_cases hc : bnd.contains p.position = true
    · simp only [quad_node_t.boundary_mk] at hw hh
      simp only [quad_boundaries, List.cons.injEq, and_true] at hbs
      obtain ⟨hb0, hb1, hb2, hb3⟩ := hbs
      have hocc0 : ∀ q ∈ occupants c0, q.position ≠ p.position := by
        intro q hq
        exact hdist q (by simp [hq])
      have hocc1 : ∀ q ∈ occupants c1, q.position ≠ p.position := by
        intro q hq
        exact hdist q (by simp [hq])
      have hocc2 : ∀ q ∈ occupants c2, q.position ≠ p.position := by
        intro q hq
        exact hdist q (by simp [hq])
      have hocc3 : ∀ q ∈ occupants c3, q.position ≠ p.position := by
        intro q hq
        exact hdist q (by simp [hq])
      obtain ⟨f0, t0, hf0⟩ := ih0 p
        (by rw [hb0]; exact half_pos hw) (by rw [hb0]; exact half_pos hh)
        hocc0
      obtain ⟨f1, t1, hf1⟩ := ih1 p
        (by rw [hb1]; exact half_pos hw) (by rw [hb1]; exact half_pos hh)
        hocc1
      obtain ⟨f2, t2, hf2⟩ := ih2 p
        (by rw [hb2]; exact half_pos hw) (by rw [hb2]; exact half_pos hh)
        hocc2
      obtain ⟨f3, t3, hf3⟩ := ih3 p
        (by rw [hb3]; exact half_pos hw) (by rw [hb3]; exact half_pos hh)
        hocc3
      have hF0 := insert_fuel_mono f0 (max (max f0 f1) (max f2 f3))
        (by omega) c0 p t0 hf0
      have hF1 := insert_fuel_mono f1 (max (max f0 f1) (max f2 f3))
        (by omega) c1 p t1 hf1
      have hF2 := insert_fuel_mono f2 (max (max f0 f1) (max f2 f3))
        (by omega) c2 p t2 hf2
      have hF3 := insert_fuel_mono f3 (max (max f0 f1) (max f2 f3))
        (by omega) c3 p t3 hf3
      refine ⟨max (max f0 f1) (max f2 f3) + 1, ?_⟩
      rw [← Option.isSome_iff_exists]
      rw [insert_internal (max (max f0 f1) (max f2 f3)) tm com bnd none
        c0 [c1, c2, c3] p hc]
      simp [for_each_child, hF0, hF1, hF2, hF3]
    · exact ⟨1, _, insert_not_contains 0 tm com bnd none [c0, c1, c2, c3] p
        (bool_eq_false hc)⟩

/-- Enough fuel exists to insert a whole list of bodies with pairwise
distinct positions, all distinct from the occupants already stored. -/
theorem insert_all_exists [Archimedean α] (ps : List (point_t α)) :
    ∀ n : quad_node_t α, quad_wf n →
      0 < n.boundary.width → 0 < n.boundary.height →
      (∀ p ∈ ps, ∀ q ∈ occupants n, q.position ≠ p.position) →
      ps.Pairwise (fun a b => a.position ≠ b.position) →
      ∃ f t, quad_node_insert_all f n ps = some t := by
  induction ps with
  | nil => exact fun n _ _ _ _ _ => ⟨0, n, rfl⟩
  | cons p rest ih =>
    intro n hwf hw hh hdist hpair
    obtain ⟨f1, t1, hf1⟩ := insert_exists n hwf p hw hh
      (fun q hq => hdist p (by simp) q hq)
    have hwf1 := insert_wf f1 n p t1 hwf hf1
    have hb1 := insert_boundary f1 n p t1 hf1
    have hdist1 : ∀ p' ∈ rest, ∀ q ∈ occupants t1,
        q.position ≠ p'.position := by
      intro p' hp' q hq
      rcases insert_occ_mem f1 n p t1 hf1 q hq with hq' | rfl
      · exact hdist p' (by simp [hp']) q hq'
      · exact (List.pairwise_cons.mp hpair).1 p' hp'
    obtain ⟨f2, t2, hf2⟩ := ih t1 hwf1 (by rw [hb1]; exact hw)
      (by rw [hb1]; exact hh) hdist1 (List.pairwise_cons.mp hpair).2
    refine ⟨max f1 f2, t2, ?_⟩
    have hf1' := insert_fuel_mono f1 (max f1 f2) (by omega) n p t1 hf1
    have hf2' := insert_all_fuel_mono f2 (max f1 f2) (by omega) rest t1 t2
      hf2
    simp [quad_node_insert_all, hf1', hf2']

/-!  Claim C9: insertion of pairwise-distinct bodies terminates. -/

/-- C9: for every root boundary of strictly positive width and height and
every finite list of bodies with pairwise distinct positions inside the
boundary, some fuel suffices to insert all bodies into a fresh root: the
recursive subdivision reaches cells small enough to separate any two
distinct positions, so the C++ recursion terminates. -/
theorem insert_all_terminates [Archimedean α] (bnd : rect_t α)
    (ps : List (point_t α)) (hw : 0 < bnd.width) (hh : 0 < bnd.height)
    (hin : ∀ p ∈ ps, bnd.contains p.position = true)
    (hdist : ps.Pairwise (fun a b => a.position ≠ b.position)) :
    ∃ f t, quad_node_insert_all f (quad_node_init bnd) ps = some t :=
  insert_all_exists ps (quad_node_init bnd) (quad_wf_init bnd) hw hh
    (fun p _ q hq => by simp at hq) hdist

unseal Rat.add Rat.mul Rat.inv Rat.sub in
/-- Witness for C9: three distinct bodies inside the boundary
(0, 0, 4, 4). -/
theorem insert_all_terminates_witness :
    (0 : ℚ) < (⟨0, 0, 4, 4⟩ : rect_t ℚ).width ∧
    (0 : ℚ) < (⟨0, 0, 4, 4⟩ : rect_t ℚ).height ∧
    (∀ p ∈ [point_init (2:ℚ) ⟨1, 1⟩, point_init 3 ⟨1, 2⟩,
        point_init 4 ⟨3, 3⟩],
      (⟨0, 0, 4, 4⟩ : rect_t ℚ).contains p.position = true) ∧
    ([point_init (2:ℚ) ⟨1, 1⟩, point_init 3 ⟨1, 2⟩,
        point_init 4 ⟨3, 3⟩].Pairwise
      (fun a b => a.position ≠ b.position)) ∧
    ∃ f t, quad_node_insert_all f
      (quad_node_init (⟨0, 0, 4, 4⟩ : rect_t ℚ))
      [point_init (2:ℚ) ⟨1, 1⟩, point_init 3 ⟨1, 2⟩, point_init 4 ⟨3, 3⟩] =
        some t := by
  refine ⟨by decide, by decide, by decide, by decide, ?_⟩
  exact insert_all_terminates ⟨0, 0, 4, 4⟩ _ (by decide) (by decide)
    (by decide) (by decide)

/-!  Claim C4: opening-angle monotonicity of the visited node set. -/

@[simp] theorem force_visited_list_nil (C : bh_consts α) (pos : vec2_t α)
    (i : Nat) : force_visited_list C [] pos i = [] := by
  rw [force_visited_list]

@[simp] theorem force_visited_list_cons (C : bh_consts α)
    (c : quad_node_t α) (cs pos i) :
    force_visited_list C (c :: cs) pos i =
      (force_visited C c pos).map (i :: ·) ++
        force_visited_list C cs pos (i + 1) := by
  rw [force_visited_list]

theorem force_visited_mk (C : bh_consts α) (tm : α) (com bnd pt cs pos) :
    force_visited C (.mk tm com bnd pt cs) pos =
      if tm = 0 ∨ pos = com then [[]]
      else if cs.isEmpty = true ∨
          bnd.width / softened_distance C.sqrt_fn C.softening (com - pos) <
            C.theta then [[]]
      else [] :: force_visited_list C cs pos 0 := by
  rw [force_visited]

/-- Monotonicity over the children list. -/
theorem force_visited_list_theta_mono (C : bh_consts α) (θ1 θ2 : α)
    (pos : vec2_t α) :
    ∀ cs : List (quad_node_t α),
      (∀ c ∈ cs,
        (∀ path ∈ force_visited { C with theta := θ2 } c pos,
          path ∈ force_visited { C with theta := θ1 } c pos) ∧
        (force_visited { C with theta := θ2 } c pos).length ≤
          (force_visited { C with theta := θ1 } c pos).length) →
      ∀ i : Nat,
        (∀ path ∈ force_visited_list { C with theta := θ2 } cs pos i,
          path ∈ force_visited_list { C with theta := θ1 } cs pos i) ∧
        (force_visited_list { C with theta := θ2 } cs pos i).length ≤
          (force_visited_list { C with theta := θ1 } cs pos i).length := by
  intro cs
  induction cs with
  | nil => intro _ i; simp
  | cons c rest ih =>
    intro ihc i
    obtain ⟨hsub, hlen⟩ := ihc c (by simp)
    obtain ⟨hsub', hlen'⟩ := ih (fun c' hc' => ihc c' (by simp [hc'])) (i + 1)
    constructor
    · intro path hp
      simp only [force_visited_list_cons, List.mem_append,
        List.mem_map] at hp ⊢
      rcases hp with ⟨q, hq, rfl⟩ | hp
      · exact Or.inl ⟨q, hsub q hq, rfl⟩
      · exact Or.inr (hsub' path hp)
    · simp only [force_visited_list_cons, List.length_append,
        List.length_map]
      omega

/-- C4: for a fixed tree and a fixed queried position, the set of node paths
visited by the force traversal with threshold theta2 is a subset of the set
visited with theta1 whenever theta1 <= theta2 (the traversal decisions are
exactly those of quad_node_compute_force: the zero-mass/coincidence guard
and the leaf-or-opening-angle acceptance, neither of which depends on the
accumulated velocity); hence the number of visited nodes never increases
when theta increases. -/
theorem force_visited_theta_mono (C : bh_consts α) (θ1 θ2 : α)
    (h : θ1 ≤ θ2) (t : quad_node_t α) (pos : vec2_t α) :
    (∀ path ∈ force_visited { C with theta := θ2 } t pos,
      path ∈ force_visited { C with theta := θ1 } t pos) ∧
    (force_visited { C with theta := θ2 } t pos).length ≤
      (force_visited { C with theta := θ1 } t pos).length := by
  induction t using quad_node_ind with
  | _ tm com bnd pt cs ihc =>
    by_cases hguard : tm = 0 ∨ pos = com
    · simp only [force_visited_mk]
      rw [if_pos hguard, if_pos hguard]
      simp
    · by_cases hacc1 : cs.isEmpty = true ∨
          bnd.width / softened_distance C.sqrt_fn C.softening (com - pos) <
            θ1
      · have hacc2 : cs.isEmpty = true ∨
            bnd.width / softened_distance C.sqrt_fn C.softening (com - pos) <
              θ2 := by
          rcases hacc1 with h' | h'
          · exact Or.inl h'
          · exact Or.inr (lt_of_lt_of_le h' h)
        simp only [force_visited_mk]
        rw [if_neg hguard, if_pos hacc2, if_neg hguard, if_pos hacc1]
        simp
      · by_cases hacc2 : cs.isEmpty = true ∨
            bnd.width / softened_distance C.sqrt_fn C.softening (com - pos) <
              θ2
        · simp only [force_visited_mk]
          rw [if_neg hguard, if_pos hacc2, if_neg hguard, if_neg hacc1]
          constructor
          · intro path hp
            simp only [List.mem_singleton] at hp
            subst hp
            exact List.mem_cons_self _ _
          · simp
        · obtain ⟨hsub, hlen⟩ :=
            force_visited_list_theta_mono C θ1 θ2 pos cs ihc 0
          simp only [force_visited_mk]
          rw [if_neg hguard, if_neg hacc2, if_neg hguard, if_neg hacc1]
          constructor
          · intro path hp
            rcases List.mem_cons.mp hp with rfl | hp
            · exact List.mem_cons_self _ _
            · exact List.mem_cons_of_mem _ (hsub path hp)
          · simp only [List.length_cons]
            omega

unseal Rat.add Rat.mul Rat.inv Rat.sub in
/-- Witness for C4 at thresholds 1 <= 2 on a concrete subdivided tree. -/
theorem force_visited_theta_mono_witness :
    (1 : ℚ) ≤ 2 ∧
    ((∀ path ∈ force_visited
        { (⟨0, 1, 1, 1, fun x => x⟩ : bh_consts ℚ) with theta := 2 }
        (.mk 2 ⟨3, 4⟩ ⟨0, 0, 4, 4⟩ none (quad_node_subdivide ⟨0, 0, 4, 4⟩))
        ⟨0, 0⟩,
      path ∈ force_visited
        { (⟨0, 1, 1, 1, fun x => x⟩ : bh_consts ℚ) with theta := 1 }
        (.mk 2 ⟨3, 4⟩ ⟨0, 0, 4, 4⟩ none (quad_node_subdivide ⟨0, 0, 4, 4⟩))
        ⟨0, 0⟩) ∧
    (force_visited
        { (⟨0, 1, 1, 1, fun x => x⟩ : bh_consts ℚ) with theta := 2 }
        (.mk 2 ⟨3, 4⟩ ⟨0, 0, 4, 4⟩ none (quad_node_subdivide ⟨0, 0, 4, 4⟩))
        ⟨0, 0⟩).length ≤
      (force_visited
        { (⟨0, 1, 1, 1, fun x => x⟩ : bh_consts ℚ) with theta := 1 }
        (.mk 2 ⟨3, 4⟩ ⟨0, 0, 4, 4⟩ none (quad_node_subdivide ⟨0, 0, 4, 4⟩))
        ⟨0, 0⟩).length) :=
  ⟨by norm_num,
    force_visited_theta_mono ⟨0, 1, 1, 1, fun x => x⟩ 1 2 (by norm_num)
      (.mk 2 ⟨3, 4⟩ ⟨0, 0, 4, 4⟩ none (quad_node_subdivide ⟨0, 0, 4, 4⟩))
      ⟨0, 0⟩⟩

end BH
